import Mathlib

/-!
Verification development for the BigBasket alert scheduler (src/app.py).

The Python source is shallowly embedded: each helper of the
BigBasketScheduler class that the checked claims mention is translated to a
computable Lean definition over lists of characters and lists of strings.
Machine-level details that the claims do not touch (network calls, logging,
pandas internals beyond their documented value-level semantics) are modelled
by explicit data: a sheet is a list of rows of cell strings, a Drive folder
is a list of file names, and success of an external append or upload is an
explicit Boolean in the environment.
-/

set_option maxRecDepth 100000

/-! ## Basic character and string helpers -/

/-- The apostrophe character (written via its code point). -/
def aposChar : Char := Char.ofNat 39

/-- The double-quote character. -/
def quoteChar : Char := Char.ofNat 34

/-- The backslash character. -/
def backslashChar : Char := Char.ofNat 92

/-- The underscore character. -/
def underChar : Char := Char.ofNat 95

/-- ASCII whitespace, as stripped by Python str.strip (ASCII fragment). -/
def isPyWS (c : Char) : Bool :=
  c = ' ' || c = Char.ofNat 9 || c = Char.ofNat 10 ||
  c = Char.ofNat 13 || c = Char.ofNat 11 || c = Char.ofNat 12

/-- Strip trailing whitespace of a character list. -/
def stripRight (cs : List Char) : List Char :=
  ((cs.reverse).dropWhile isPyWS).reverse

/-- Strip leading and trailing whitespace: Python str.strip on ASCII input. -/
def stripChars (cs : List Char) : List Char :=
  (stripRight cs).dropWhile isPyWS

/-- Python str.strip, embedded on Lean strings. -/
def pyStrip (s : String) : String := String.mk (stripChars s.toList)

/-- Lower-casing of one ASCII character (Python str.lower, ASCII fragment). -/
def lowChar (c : Char) : Char :=
  if 65 ≤ c.toNat && c.toNat ≤ 90 then Char.ofNat (c.toNat + 32) else c

/-- Upper-casing of one ASCII character (Python str.upper, ASCII fragment). -/
def upChar (c : Char) : Char :=
  if 97 ≤ c.toNat && c.toNat ≤ 122 then Char.ofNat (c.toNat - 32) else c

/-- Substring test on character lists: Python `needle in hay`. -/
def containsSub (needle hay : List Char) : Bool :=
  hay.tails.any (fun t => needle.isPrefixOf t)

/-- Python `"<sep>"`-split of a string with a one-character separator,
matching str.split semantics: the result is never empty and splitting the
empty string yields one empty part. -/
def splitOnChar (sep : Char) : List Char → List (List Char)
  | [] => [[]]
  | c :: rest =>
    let r := splitOnChar sep rest
    if c = sep then [] :: r
    else
      match r with
      | h :: t => (c :: h) :: t
      | [] => [[c]]

/-- Join parts with a dot: Python `".".join(parts)`. -/
def joinDots : List (List Char) → List Char
  | [] => []
  | [p] => p
  | p :: ps => p ++ '.' :: joinDots ps

/-! ## The filename sanitizer `_sanitize_filename` (src/app.py lines 646-657)

```
cleaned = re.sub(r'[<>:"/\\|?*]', '_', filename)
if len(cleaned) > 100:
    name_parts = cleaned.split('.')
    if len(name_parts) > 1:
        extension = name_parts[-1]
        base_name = '.'.join(name_parts[:-1])
        cleaned = f"{base_name[:95]}.{extension}"
    else:
        cleaned = cleaned[:100]
return cleaned
```
-/

/-- The characters replaced by the regex character class of
`_sanitize_filename`. -/
def illegalChar (c : Char) : Bool :=
  c = '<' || c = '>' || c = ':' || c = quoteChar || c = '/' ||
  c = backslashChar || c = '|' || c = '?' || c = '*'

/-- Character-list body of `_sanitize_filename`. -/
def sanitizeChars (cs : List Char) : List Char :=
  let cleaned := cs.map (fun c => if illegalChar c then underChar else c)
  if 100 < cleaned.length then
    let parts := splitOnChar '.' cleaned
    if 1 < parts.length then
      let extension := parts.getLastD []
      let base := joinDots parts.dropLast
      (base.take 95) ++ '.' :: extension
    else cleaned.take 100
  else cleaned

/-- `_sanitize_filename` of src/app.py. -/
def sanitize_filename (s : String) : String := String.mk (sanitizeChars s.toList)

/-- Length of the final dot-delimited extension of the cleaned name (0 when
the cleaned name holds no dot). -/
def sanitizeExtLen (s : String) : Nat :=
  let cleaned := s.toList.map (fun c => if illegalChar c then underChar else c)
  let parts := splitOnChar '.' cleaned
  if 1 < parts.length then (parts.getLastD []).length else 0

/-- A filename whose cleaned form is longer than 100 characters and whose
final dot-delimited extension is 120 characters long. -/
def c1Input : String := String.mk ('a' :: '.' :: List.replicate 120 'x')

/-- A filename longer than 100 characters with a 3-character extension. -/
def c1WitnessInput : String :=
  String.mk (List.replicate 120 'a' ++ '.' :: ['t', 'x', 't'])

/-! ## Header location in `_get_processed_files_from_sheet`
(src/app.py lines 226-262) and `_get_source_file_names_from_sheet`
(lines 314-355)

The PO and SKU columns are searched by one loop over the headers:

```
for i, header in enumerate(headers):
    if header and 'PO' in str(header).upper():
        po_col_idx = i
    if header and 'SKU' in str(header).upper():
        sku_col_idx = i
```

There is no `break`, so each assignment keeps overwriting: the loop leaves
the index of the LAST matching header.  The source-file-name search, by
contrast, does `break` on the first match. -/

/-- Case-insensitive substring test used for header matching: the needle is
already upper case in the source, and the header is upper-cased. -/
def upperContains (needle : String) (h : String) : Bool :=
  containsSub needle.toList (h.toList.map upChar)

/-- The PO-header predicate of the loop body. -/
def poMatch (h : String) : Bool :=
  decide (h ≠ "") && upperContains "PO" h

/-- The SKU-header predicate of the loop body. -/
def skuMatch (h : String) : Bool :=
  decide (h ≠ "") && upperContains "SKU" h

/-- The header loop: an index accumulator swept over the headers, with the
running position; mirrors the Python `for i, header in enumerate(headers)`
with plain overwriting assignment. -/
def lastMatchAux (p : String → Bool) : Nat → Option Nat → List String → Option Nat
  | _, acc, [] => acc
  | i, acc, h :: t => lastMatchAux p (i + 1) (if p h then some i else acc) t

/-- Column located by the header loop of `_get_processed_files_from_sheet`. -/
def lastMatchIdx (p : String → Bool) (headers : List String) : Option Nat :=
  lastMatchAux p 0 none headers

/-- Modelled from the spec words "first matching header wins": the first
matching index, written for comparison against the code embedding
`lastMatchIdx`. -/
def firstMatchIdx (p : String → Bool) : List String → Option Nat
  | [] => none
  | h :: t => if p h then some 0 else (firstMatchIdx p t).map (· + 1)

/-- The `source_file_name`-header predicate (lower-cased substring). -/
def sourceMatch (h : String) : Bool :=
  decide (h ≠ "") && containsSub ("source_file_name".toList) (h.toList.map lowChar)

/-- `_get_processed_files_from_sheet`: the set of `po|sku` content keys of
the sheet, with blank sides skipped; rows shorter than both column indices
are skipped.  The set is modelled as a duplicate-free list. -/
def getProcessedKeys (values : List (List String)) : List String :=
  match values with
  | [] => []
  | headers :: rows =>
    match lastMatchIdx poMatch headers, lastMatchIdx skuMatch headers with
    | some p, some s =>
      rows.foldl (fun acc row =>
        if max p s < row.length then
          let po := pyStrip (row.getD p "")
          let sku := pyStrip (row.getD s "")
          if po ≠ "" ∧ sku ≠ "" then
            let key := po ++ "|" ++ sku
            if key ∈ acc then acc else acc ++ [key]
          else acc
        else acc) []
    | _, _ => []

/-- `_get_source_file_names_from_sheet`: the set of values of the first
header containing `source_file_name` (case-insensitive), empty when no such
header exists. -/
def getSourceNames (values : List (List String)) : List String :=
  match values with
  | [] => []
  | headers :: rows =>
    match firstMatchIdx sourceMatch headers with
    | none => []
    | some i =>
      rows.foldl (fun acc row =>
        if i < row.length then
          let v := pyStrip (row.getD i "")
          if v ≠ "" then (if v ∈ acc then acc else acc ++ [v]) else acc
        else acc) []

/-! ## The run orchestrator `run_workflow` (src/app.py lines 1248-1339)

Every callee of `run_workflow` catches its own exceptions and reports
through a Boolean or through counters, so the orchestrator is a straight
line of calls.  On authentication failure (lines 1278-1282) the code sets
the failure status, saves the summary and returns: the notification send is
NOT reached.  On the successful-authentication path the summary save and
the notification send are both reached unconditionally, and each swallows
its own errors internally, so a failure inside one cannot suppress the
other.  The environment records which steps would succeed; the result
records the externally visible attempts. -/

/-- Environment of one run: whether authentication, the summary save and
the notification send succeed.  The two workflow Booleans only feed log
warnings in the source and are omitted. -/
structure RunEnv where
  authOk : Bool
  summaryOk : Bool
  emailOk : Bool

/-- Externally visible outcome of `run_workflow`. -/
structure RunResult where
  status : String
  summaryAttempted : Bool
  notificationAttempted : Bool
  returnValue : Bool
deriving DecidableEq, Repr

/-- `run_workflow`: authentication failure short-circuits after the summary
save; otherwise both the summary save and the notification send are
attempted regardless of their own success. -/
def run_workflow (env : RunEnv) : RunResult :=
  if env.authOk then
    { status := "Completed Successfully"
      summaryAttempted := true
      notificationAttempted := true
      returnValue := true }
  else
    { status := "Failed - Authentication Error"
      summaryAttempted := true
      notificationAttempted := false
      returnValue := false }

/-! ## The Excel workflow reconciler `process_excel_workflow`
(src/app.py lines 468-592)

A candidate file is modelled by its Drive name, its parsed-and-cleaned
table (the output of `_read_excel_file_robust`, empty when every decode
strategy failed), the positions of the exact `PO No` and `Sku Code` columns
when both are present, and a Boolean saying whether the sheet append for
this file would succeed (`_append_to_sheet` is the only raising call of the
per-file loop body; everything else catches internally).

The per-file loop body (lines 512-576): an empty table counts as failed; a
file with both key columns filters its rows against the in-memory
`existing_data` set, counts as skipped when nothing is left, otherwise
appends the survivors and then adds the non-blank keys of the appended rows
to `existing_data`; a file without the two columns appends its whole table
unfiltered and adds no keys.  The pre-filter (lines 500-507) drops files
whose name is already in the `source_file_name` column, one
`files_skipped` increment each, before any parsing.

The sheet itself is tracked abstractly by the key set and the
source-file-name set its rows carry; the positional column alignment of the
Sheets append is assumed, as everywhere in the source. -/

/-- A candidate Drive file after parsing. -/
structure XFile where
  name : String
  table : List (List String)
  poIdx : Option Nat
  skuIdx : Option Nat
  appendOk : Bool
deriving DecidableEq, Repr

/-- The content key of a row given the two column positions:
`f"{str(row.get('PO No', '')).strip()}|{str(row.get('Sku Code', '')).strip()}"`. -/
def rowKeyAt (p s : Nat) (row : List String) : String :=
  pyStrip (row.getD p "") ++ "|" ++ pyStrip (row.getD s "")

/-- Whether both sides of the key are non-blank after stripping — the
condition under which the key is recorded (lines 563-566). -/
def rowNonblankAt (p s : Nat) (row : List String) : Bool :=
  decide (pyStrip (row.getD p "") ≠ "") && decide (pyStrip (row.getD s "") ≠ "")

/-- Abstract content of the destination sheet: its non-blank content keys
and its recorded source file names. -/
structure SheetState where
  keys : List String
  sources : List String
deriving DecidableEq, Repr

/-- State of one Excel workflow run: the in-memory `existing_data` set, the
source names carried by the sheet (grown by appends), the three counters,
and a log of (file, appended rows) for each file whose append happened. -/
structure ExcelRunState where
  existing : List String
  sheetSources : List String
  processed : Nat
  skipped : Nat
  failed : Nat
  log : List (XFile × List (List String))
deriving DecidableEq, Repr

/-- The rows of the table that survive the duplicate filter against the
set `ex` (the mask of lines 534-539). -/
def keptRows (p s : Nat) (ex : List String) (table : List (List String)) :
    List (List String) :=
  table.filter (fun r => decide (rowKeyAt p s r ∉ ex))

/-- The per-file loop body of `process_excel_workflow`. -/
def processFile (st : ExcelRunState) (f : XFile) : ExcelRunState :=
  if f.table = [] then
    { st with failed := st.failed + 1 }
  else
    match f.poIdx, f.skuIdx with
    | some p, some s =>
      if keptRows p s st.existing f.table = [] then
        { st with skipped := st.skipped + 1 }
      else if f.appendOk then
        { st with
          existing := st.existing ++
            ((keptRows p s st.existing f.table).filter
              (fun r => rowNonblankAt p s r)).map (rowKeyAt p s)
          sheetSources := st.sheetSources ++ [f.name]
          processed := st.processed + 1
          log := st.log ++ [(f, keptRows p s st.existing f.table)] }
      else { st with failed := st.failed + 1 }
    | _, _ =>
      if f.appendOk then
        { st with
          sheetSources := st.sheetSources ++ [f.name]
          processed := st.processed + 1
          log := st.log ++ [(f, f.table)] }
      else { st with failed := st.failed + 1 }

/-- The pre-filter of lines 500-507: files whose name is already recorded
go to `files_skipped`, the rest are parsed. -/
def excelToProcess (sheet : SheetState) (files : List XFile) : List XFile :=
  files.filter (fun f => !(decide (f.name ∈ sheet.sources)))

/-- Initial run state: `existing_data` and the source set are read from the
sheet; the pre-filter has already counted its skips. -/
def excelInit (sheet : SheetState) (files : List XFile) : ExcelRunState :=
  { existing := sheet.keys
    sheetSources := sheet.sources
    processed := 0
    skipped := (files.filter (fun f => decide (f.name ∈ sheet.sources))).length
    failed := 0
    log := [] }

/-- One full Excel workflow run (without the final cleanup pass, which the
reconciler claims do not cover; it is modelled separately below). -/
def runExcel (sheet : SheetState) (files : List XFile) : ExcelRunState :=
  (excelToProcess sheet files).foldl processFile (excelInit sheet files)

/-- The sheet as the next run reads it back: keys and sources after the
appends of this run. -/
def sheetAfter (st : ExcelRunState) : SheetState :=
  { keys := st.existing, sources := st.sheetSources }

/-- A file whose name is already recorded in the sheet. -/
def c5File : XFile :=
  { name := "grn_jan.xlsx", table := [["P", "S"]],
    poIdx := some 0, skuIdx := some 1, appendOk := true }

/-- A sheet that already records `grn_jan.xlsx` as a source file. -/
def c5Sheet : SheetState := { keys := [], sources := ["grn_jan.xlsx"] }

/-- A run state whose key set already holds the key of every row of
`c5DupFile`. -/
def c5State : ExcelRunState :=
  { existing := ["P|S"], sheetSources := [], processed := 0, skipped := 0,
    failed := 0, log := [] }

/-- A file all of whose rows are key-duplicates against `c5State`. -/
def c5DupFile : XFile :=
  { name := "grn_feb.xlsx", table := [["P", "S"]],
    poIdx := some 0, skuIdx := some 1, appendOk := true }

/-- A first file against the empty dataset. -/
def c9File : XFile :=
  { name := "first.xlsx", table := [["A", "B"], ["C", "D"]],
    poIdx := some 0, skuIdx := some 1, appendOk := true }

/-! ## The Gmail workflow `_extract_attachments_from_email`
(src/app.py lines 659-738) and the Drive folder cache
(`_get_existing_files_in_folder`, `_check_file_exists_in_drive`,
`_create_drive_folder`, lines 175-217 and 611-644)

An attachment candidate carries the message id, the part filename, the raw
sender header and a Boolean saying whether its download-and-upload would
succeed.  Folders are keyed by their name under the one base folder of the
run; the base folder itself is the `none` key — creating a sender folder
adds an entry to the remote listing of the base and deletes the cached
listing of the base (lines 637-639).  The cache entry of a sender folder is
seeded from the remote listing on first lookup and extended on each upload
(lines 727-729).  The recursive walk over the payload tree only flattens
the leaf parts, so a run is modelled over the list of leaf attachments. -/

/-- One leaf attachment part. -/
structure Attachment where
  message_id : String
  filename : String
  sender : String
  fetchOk : Bool
deriving DecidableEq, Repr

/-- `filename.lower().endswith(('.xls', '.xlsx', '.xlsm'))`. -/
def isExcelName (n : String) : Bool :=
  (".xls".toList.isSuffixOf (n.toList.map lowChar)) ||
  (".xlsx".toList.isSuffixOf (n.toList.map lowChar)) ||
  (".xlsm".toList.isSuffixOf (n.toList.map lowChar))

/-- The sender-address extraction of lines 687-689. -/
def extractEmail (s : String) : String :=
  if s.toList.contains '<' && s.toList.contains '>' then
    pyStrip (String.mk
      ((splitOnChar '>' ((splitOnChar '<' s.toList).getD 1 [])).getD 0 []))
  else s

/-- The stored file key `f"{message_id}_{clean_filename}"`. -/
def attachmentKey (a : Attachment) : String :=
  a.message_id ++ "_" ++ sanitize_filename a.filename

/-- The sender folder name for an attachment. -/
def attachmentFolder (a : Attachment) : String :=
  sanitize_filename (extractEmail a.sender)

/-- Drive-side state of one Gmail run: the sender folders existing under
the base, the remote listing of each folder (`none` is the base), the
per-run listing cache, and the three counters. -/
structure GmailState where
  folders : List String
  remote : Option String → List String
  cache : Option String → Option (List String)
  saved : Nat
  skipped : Nat
  failed : Nat

/-- `_create_drive_folder` under the base: idempotent per name; a fresh
folder joins the remote listing of the base and invalidates the cached
listing of the base. -/
def createFolder (st : GmailState) (n : String) : GmailState :=
  if n ∈ st.folders then st
  else
    { st with
      folders := n :: st.folders
      remote := fun f => if f = none then n :: st.remote none else st.remote f
      cache := fun f => if f = none then none else st.cache f }

/-- `_get_existing_files_in_folder` for a sender folder: cached listing
when present, otherwise the remote listing, which is then cached. -/
def folderListing (st : GmailState) (n : String) : List String × GmailState :=
  match st.cache (some n) with
  | some l => (l, st)
  | none =>
    (st.remote (some n),
      { st with cache := fun f =>
          if f = some n then some (st.remote (some n)) else st.cache f })

/-- A successful upload: the name joins the remote listing and, when the
folder is cached, the cached listing. -/
def uploadFile (st : GmailState) (n fname : String) : GmailState :=
  { st with
    remote := fun f =>
      if f = some n then fname :: st.remote (some n) else st.remote f
    cache := fun f =>
      if f = some n then (st.cache (some n)).map (fun l => fname :: l)
      else st.cache f }

/-- The leaf body of `_extract_attachments_from_email`: non-Excel names are
ignored; the sender folder is created (or found), the stored key is checked
against the folder listing, and the attachment is uploaded, skipped or
counted as failed. -/
def processAttachment (st : GmailState) (a : Attachment) : GmailState :=
  if isExcelName a.filename then
    let st1 := createFolder st (attachmentFolder a)
    let pr := folderListing st1 (attachmentFolder a)
    if attachmentKey a ∈ pr.1 then { pr.2 with skipped := pr.2.skipped + 1 }
    else if a.fetchOk then
      { uploadFile pr.2 (attachmentFolder a) (attachmentKey a) with
          saved := pr.2.saved + 1 }
    else { pr.2 with failed := pr.2.failed + 1 }
  else st

/-- The remote Drive content between runs. -/
structure DriveSnapshot where
  folders : List String
  remote : Option String → List String

/-- The Drive-side state at run start: the cache starts empty
(`run_workflow` resets `existing_files_cache` at run start, lines
1270-1271). -/
def gmailInit (snap : DriveSnapshot) : GmailState :=
  { folders := snap.folders, remote := snap.remote, cache := fun _ => none,
    saved := 0, skipped := 0, failed := 0 }

/-- One Gmail workflow run. -/
def runGmail (snap : DriveSnapshot) (atts : List Attachment) : GmailState :=
  atts.foldl processAttachment (gmailInit snap)

/-- The Drive content as the next run finds it. -/
def driveAfter (st : GmailState) : DriveSnapshot :=
  { folders := st.folders, remote := st.remote }

/-- The answer a membership query against the folder index would get:
the cached listing when one is present, else the remote listing. -/
def effMem (st : GmailState) (f : Option String) (n : String) : Prop :=
  match st.cache f with
  | some l => n ∈ l
  | none => n ∈ st.remote f

/-- Every cached listing under-approximates the remote listing. -/
def cacheSub (st : GmailState) : Prop :=
  ∀ f l, st.cache f = some l → ∀ n ∈ l, n ∈ st.remote f

/-! Cross-file duplicate protection: the log of appended batches. -/

/-- Relation between an earlier and a later appended batch: no later
appended row repeats the content key of an earlier appended row whose key
was non-blank (keys are taken at the key-column positions of the
respective files). -/
def logRel (e e2 : XFile × List (List String)) : Prop :=
  ∀ p s p2 s2, e.1.poIdx = some p → e.1.skuIdx = some s →
    e2.1.poIdx = some p2 → e2.1.skuIdx = some s2 →
    ∀ r ∈ e.2, rowNonblankAt p s r = true →
    ∀ r2 ∈ e2.2, rowKeyAt p2 s2 r2 ≠ rowKeyAt p s r

/-- Every non-blank key of an already appended row is in `existing_data`:
the keys were recorded immediately after the append, before the next file
was examined. -/
def logInv (st : ExcelRunState) : Prop :=
  ∀ e ∈ st.log, ∀ p s, e.1.poIdx = some p → e.1.skuIdx = some s →
    ∀ r ∈ e.2, rowNonblankAt p s r = true → rowKeyAt p s r ∈ st.existing

/-- A concrete Drive state with one file in the base folder and an empty
cache. -/
def c4Drive : GmailState :=
  { folders := [], remote := fun f => if f = none then ["seed"] else [],
    cache := fun _ => none, saved := 0, skipped := 0, failed := 0 }

/-- A concrete attachment for the C4 witness. -/
def c4Att : Attachment :=
  { message_id := "m1", filename := "r.xlsx",
    sender := "BB <alerts@bigbasket.com>", fetchOk := true }

/-! Idempotence of the reconciler (C8): files that a repeated run can see. -/

/-- A file on which the loop body accepts nothing: empty table, or every
row key already indexed, or a failing append. -/
def fileInert (E : List String) (f : XFile) : Prop :=
  f.table = [] ∨
  (∃ p s, f.poIdx = some p ∧ f.skuIdx = some s ∧
    ∀ r ∈ f.table, rowKeyAt p s r ∈ E) ∨
  f.appendOk = false

/-- A file already reflected in a run state: its name is recorded, or the
loop body would accept nothing from it. -/
def excelStable (E S : List String) (f : XFile) : Prop :=
  f.name ∈ S ∨ fileInert E f

/-- Whether an attachment can be newly accepted against a given remote
listing: an Excel attachment whose key is already stored, or whose fetch
fails, is never accepted. -/
def attStable (rem : Option String → List String) (a : Attachment) : Prop :=
  isExcelName a.filename = true →
  attachmentKey a ∈ rem (some (attachmentFolder a)) ∨ a.fetchOk = false

/-- The remote state dominates a baseline listing. -/
def remoteSup (base : Option String → List String) (st : GmailState) : Prop :=
  ∀ f n, n ∈ base f → n ∈ st.remote f

/-- Every cached listing dominates the baseline listing of its folder. -/
def cacheSup (base : Option String → List String) (st : GmailState) : Prop :=
  ∀ f l, st.cache f = some l → ∀ n, n ∈ base f → n ∈ l

/-! ## Parsing-time cleaning `_clean_dataframe` (src/app.py lines 927-946)

Cells are strings (string columns are forced to str in the source; a
pandas NaN cell prints as the string `nan` under that cast, and the blank
test of the mask covers NaN, the empty string and the string `nan`
together, which the model folds into one string test).  Apostrophes are
removed from every cell; when the table has at least five columns the rows
blank in the fifth column are dropped; then exact duplicate rows are
dropped keeping the first (pandas `drop_duplicates`, whose documented
keep-first semantics the generic `dedupKeepFirst` models). -/

/-- Removal of apostrophes: `.str.replace("'", "")`. -/
def stripApos (s : String) : String :=
  String.mk (s.toList.filter (fun c => c ≠ aposChar))

/-- The blank test of the fifth-column mask: blank, or the string `nan`
(which is also what a NaN cell prints as). -/
def blank5 (row : List String) : Bool :=
  pyStrip (row.getD 4 "") = "" || pyStrip (row.getD 4 "") = "nan"

/-- Keep-first deduplication with an explicit set of already seen keys:
the documented semantics of pandas `drop_duplicates(keep="first")`. -/
def dedupSeen {α β : Type} [DecidableEq β] (key : α → β) :
    List β → List α → List α
  | _, [] => []
  | seen, x :: xs =>
    if key x ∈ seen then dedupSeen key seen xs
    else x :: dedupSeen key (key x :: seen) xs

/-- Keep-first deduplication by a key function. -/
def dedupKeepFirst {α β : Type} [DecidableEq β] (key : α → β)
    (xs : List α) : List α :=
  dedupSeen key [] xs

/-- `_clean_dataframe`, on a table of `ncols` columns. -/
def clean_dataframe (ncols : Nat) (rows : List (List String)) :
    List (List String) :=
  let rows1 := rows.map (fun r => r.map stripApos)
  let rows2 := if 5 ≤ ncols then rows1.filter (fun r => !(blank5 r)) else rows1
  dedupKeepFirst id rows2

/-- A raw five-column table with one blank-fifth row and one duplicate. -/
def c10Rows : List (List String) :=
  [["a", "b", "c", "d", "e"], ["a", "b", "c", "d", " "],
   ["a", "b", "c", "d", "e"]]

/-! ## The dataset cleanup pass `_remove_duplicates_from_sheet`
(src/app.py lines 984-1061)

The pass reads the full sheet, pads the rows, defaults blank headers,
deduplicates the data rows by the exact `("Sku Code", "PO No")` pair
keeping the first occurrence, drops all-blank rows then all-blank columns,
sorts by the `PO No` column when present, coerces each remaining cell
through `process_value` (blank to empty, else `float(v)` when the text
holds a dot or an `e`, else `int(v)`, falling back to the text itself) and
rewrites the sheet.

The write/read round trip of a cell is modelled by `roundtripCell`: an
integer written with `valueInputOption RAW` reads back as its decimal
string.  The spreadsheet formatting of floats is NOT modelled faithfully:
the `floatv` constructor keeps the source text and renders as it.  No
theorem below relies on float rendering — the counterexample exercises only
the integer branch, and the amended idempotence theorem restricts its cells
to `safeCell` values on which neither numeric branch can fire (in the model
and in Python alike). -/

/-- ASCII digit test on code points. -/
def isDigitChar (c : Char) : Bool :=
  48 ≤ c.toNat && c.toNat ≤ 57

/-- After a first digit: further digits with single underscores allowed
between digits (Python numeric literal parsing accepts these). -/
def allDigitsUAux : List Char → Bool
  | [] => true
  | c :: cs =>
    if isDigitChar c then allDigitsUAux cs
    else if c = underChar then
      match cs with
      | d :: cs2 => isDigitChar d && allDigitsUAux cs2
      | [] => false
    else false

/-- A non-empty digit run with single underscores between digits. -/
def allDigitsU : List Char → Bool
  | [] => false
  | c :: cs => isDigitChar c && allDigitsUAux cs

/-- Decimal value of a digit run, skipping underscores. -/
def digitsToNat (cs : List Char) : Nat :=
  cs.foldl (fun a c => if isDigitChar c then a * 10 + (c.toNat - 48) else a) 0

/-- Python `int(str)` (ASCII fragment): optional whitespace, optional sign,
digits. -/
def pyIntParse (s : String) : Option Int :=
  match stripChars s.toList with
  | [] => none
  | c :: rest =>
    if c = '+' then
      if allDigitsU rest then some (digitsToNat rest) else none
    else if c = '-' then
      if allDigitsU rest then some (-(digitsToNat rest : Int)) else none
    else if allDigitsU (c :: rest) then some (digitsToNat (c :: rest))
    else none

/-- Drop one leading sign. -/
def dropSign : List Char → List Char
  | [] => []
  | c :: cs => if c = '+' || c = '-' then cs else c :: cs

/-- Consume a digit run (with underscores); keep the rest. -/
def digitsTail : List Char → List Char
  | [] => []
  | c :: cs =>
    if isDigitChar c then digitsTail cs
    else if c = underChar then
      match cs with
      | d :: cs2 => if isDigitChar d then digitsTail cs2 else c :: cs
      | [] => c :: cs
    else c :: cs

/-- Require a leading digit and consume the run. -/
def digitsAfter : List Char → Option (List Char)
  | [] => none
  | c :: cs => if isDigitChar c then some (digitsTail cs) else none

/-- An optional exponent part closing the literal. -/
def expOk (cs : List Char) : Bool :=
  match cs with
  | [] => true
  | c :: rest => (c = 'e' || c = 'E') && allDigitsU (dropSign rest)

/-- Case-insensitive comparison against a fixed lower-case word. -/
def lowerEqStr (cs : List Char) (w : String) : Bool :=
  decide (cs.map lowChar = w.toList)

/-- The numeric shapes accepted by Python `float`. -/
def floatNum (cs : List Char) : Bool :=
  match digitsAfter cs with
  | some rest =>
    match rest with
    | [] => true
    | c :: rest2 =>
      if c = '.' then
        match digitsAfter rest2 with
        | some rest3 => expOk rest3
        | none => expOk rest2
      else expOk (c :: rest2)
  | none =>
    match cs with
    | [] => false
    | c :: rest =>
      if c = '.' then
        match digitsAfter rest with
        | some rest2 => expOk rest2
        | none => false
      else false

/-- Whether Python `float(str)` succeeds (ASCII fragment). -/
def pyFloatOk (s : String) : Bool :=
  lowerEqStr (dropSign (stripChars s.toList)) "inf" ||
  lowerEqStr (dropSign (stripChars s.toList)) "infinity" ||
  lowerEqStr (dropSign (stripChars s.toList)) "nan" ||
  floatNum (dropSign (stripChars s.toList))

/-- A value written back to the sheet by the cleanup pass. -/
inductive SheetCell : Type
  | strv (v : String)
  | intv (v : Int)
  | floatv (v : String)
deriving DecidableEq, Repr

/-- `process_value` of `_remove_duplicates_from_sheet` (lines 1026-1034). -/
def process_value (v : String) : SheetCell :=
  if v = "" then SheetCell.strv ""
  else if v.toList.contains '.' || (v.toList.map lowChar).contains 'e' then
    if pyFloatOk v then SheetCell.floatv v else SheetCell.strv v
  else
    match pyIntParse v with
    | some n => SheetCell.intv n
    | none => SheetCell.strv v

/-- What the written cell reads back as on the next run (see the section
comment about the float constructor). -/
def renderCell : SheetCell → String
  | SheetCell.strv v => v
  | SheetCell.intv n => toString n
  | SheetCell.floatv v => v

/-- The write/read round trip of one data cell. -/
def roundtripCell (v : String) : String := renderCell (process_value v)

/-- A character on which neither `int` nor `float` parsing can start: an
ASCII letter other than `i`, `I`, `n`, `N` (those could start `inf`,
`infinity` or `nan`). -/
def safeChar (c : Char) : Bool :=
  ((65 ≤ c.toNat && c.toNat ≤ 90) || (97 ≤ c.toNat && c.toNat ≤ 122)) &&
  !(c.toNat = 73 || c.toNat = 105 || c.toNat = 78 || c.toNat = 110)

/-- A cell that the coercion of the cleanup pass leaves unchanged: empty,
or opening with a safe letter. -/
def safeCell (s : String) : Bool :=
  match s.toList with
  | [] => true
  | c :: _ => safeChar c

/-- Pad a row to `m` cells with empty strings (lines 996-998). -/
def padRow (m : Nat) (row : List String) : List String :=
  row ++ List.replicate (m - row.length) ""

/-- `max(len(row) for row in values)` (line 996; 0 for no rows). -/
def maxRowLen (values : List (List String)) : Nat :=
  values.foldl (fun a r => max a r.length) 0

/-- Header defaulting (line 1000): blank header cells become
`Column_{i+1}`. -/
def defaultHeadersFrom (i : Nat) : List String → List String
  | [] => []
  | h :: t =>
    (if h = "" then "Column_" ++ toString (i + 1) else h) ::
      defaultHeadersFrom (i + 1) t

/-- The effective header row of the cleanup pass. -/
def defaultHeaders (hrow : List String) : List String :=
  defaultHeadersFrom 0 hrow

/-- First exact match of a column label, as pandas label lookup resolves a
unique label (the idempotence theorem restricts to sheets where the two key
labels appear at most once, where first-match is unambiguous). -/
def findCol (name : String) : List String → Option Nat
  | [] => none
  | h :: t => if h = name then some 0 else (findCol name t).map (· + 1)

/-- The dedup key of the cleanup pass: the `("Sku Code", "PO No")` cell
pair, exact strings, no trimming (line 1007). -/
def cleanupKey (si pj : Nat) (row : List String) : String × String :=
  (row.getD si "", row.getD pj "")

/-- A row blank in every cell (dropped by `dropna(how="all")`). -/
def rowAllBlank (r : List String) : Bool := r.all (fun c => c = "")

/-- Code-point lexicographic comparison, the Python string order. -/
def leCharList : List Char → List Char → Bool
  | [], _ => true
  | _ :: _, [] => false
  | a :: as, b :: bs =>
    if a.toNat < b.toNat then true
    else if a.toNat = b.toNat then leCharList as bs
    else false

/-- Python string comparison. -/
def leStr (a b : String) : Bool := leCharList a.toList b.toList

/-- Ordered insertion for the `PO No` sort (string comparison, as pandas
compares Python strings). -/
def orderedInsertRow (pj : Nat) (r : List String) :
    List (List String) → List (List String)
  | [] => [r]
  | x :: xs =>
    if leStr (r.getD pj "") (x.getD pj "") then r :: x :: xs
    else x :: orderedInsertRow pj r xs

/-- Sort rows ascending by column `pj` (`sort_values(by="PO No")`; the
order among equal keys is not guaranteed by pandas and no theorem uses
it). -/
def sortRowsByCol (pj : Nat) : List (List String) → List (List String)
  | [] => []
  | r :: rs => orderedInsertRow pj r (sortRowsByCol pj rs)

/-- Row padding width of the pass. -/
def cleanupMax (values : List (List String)) : Nat := maxRowLen values

/-- Effective headers of the pass. -/
def cleanupHeaders (values : List (List String)) : List String :=
  defaultHeaders (padRow (cleanupMax values) (values.headD []))

/-- Padded data rows. -/
def cleanupRows0 (values : List (List String)) : List (List String) :=
  values.tail.map (padRow (cleanupMax values))

/-- Data rows after the key dedup (skipped when either label is absent,
line 1006). -/
def cleanupRows1 (values : List (List String)) : List (List String) :=
  match findCol "Sku Code" (cleanupHeaders values),
      findCol "PO No" (cleanupHeaders values) with
  | some si, some pj => dedupKeepFirst (cleanupKey si pj) (cleanupRows0 values)
  | _, _ => cleanupRows0 values

/-- Data rows after the all-blank row drop (lines 1013-1014). -/
def cleanupRows2 (values : List (List String)) : List (List String) :=
  (cleanupRows1 values).filter (fun r => !(rowAllBlank r))

/-- Columns kept by the all-blank column drop (line 1015). -/
def cleanupCols (values : List (List String)) : List Nat :=
  (List.range (cleanupMax values)).filter
    (fun j => (cleanupRows2 values).any (fun r => !(r.getD j "" = "")))

/-- The headers of the kept columns. -/
def cleanupHeaders2 (values : List (List String)) : List String :=
  (cleanupCols values).map (fun j => (cleanupHeaders values).getD j "")

/-- Data rows projected to the kept columns. -/
def cleanupRows3 (values : List (List String)) : List (List String) :=
  (cleanupRows2 values).map
    (fun r => (cleanupCols values).map (fun j => r.getD j ""))

/-- Data rows after the `PO No` sort (lines 1022-1023). -/
def cleanupRows4 (values : List (List String)) : List (List String) :=
  match findCol "PO No" (cleanupHeaders2 values) with
  | some pj => sortRowsByCol pj (cleanupRows3 values)
  | none => cleanupRows3 values

/-- `_remove_duplicates_from_sheet`: the sheet content after the rewrite
(as the next read returns it, cell round trip included) and the returned
count `removed_dup + removed_clean`.  An empty read returns 0 and leaves
the sheet unwritten (lines 993-994). -/
def cleanupSheet (values : List (List String)) :
    List (List String) × Nat :=
  match values with
  | [] => ([], 0)
  | _ :: _ =>
    (cleanupHeaders2 values ::
        (cleanupRows4 values).map (fun r => r.map roundtripCell),
      ((cleanupRows0 values).length - (cleanupRows1 values).length) +
        ((cleanupRows1 values).length - (cleanupRows2 values).length))

/-- The scenario dataset of C6. -/
def c6Scenario : List (List String) :=
  [["PO No", "Sku Code"], ["PO1", "SKU1"], ["PO2", "SKU2"], ["PO1", "SKU1"]]

/-- The C7 counterexample dataset: two rows whose PO cells `07` and `7`
are distinct strings but coerce to the same written number. -/
def c7Input : List (List String) := [["PO No", "Sku Code"], ["07", "S"], ["7", "S"]]

def c7SafeInput : List (List String) :=
  [["PO No", "Sku Code"], ["PO1", "SKU1"], ["PO1", "SKU1"], ["PO2", "SKU2"]]

/-! Helper lemmas for C1. -/

theorem splitOnChar_ne_nil (sep : Char) (cs : List Char) :
    splitOnChar sep cs ≠ [] := by
  induction cs with
  | nil => simp [splitOnChar]
  | cons c rest ih =>
    simp only [splitOnChar]
    by_cases h : c = sep
    · simp [h]
    · simp only [h, if_false]
      cases hr : splitOnChar sep rest with
      | nil => simp
      | cons a t => simp

theorem getLastD_mem {α : Type} {l : List α} (d : α) (h : l ≠ []) :
    l.getLastD d ∈ l := by
  induction l with
  | nil => exact absurd rfl h
  | cons a t ih =>
    cases t with
    | nil => simp [List.getLastD]
    | cons b u =>
      have hm := ih (by simp)
      simp only [List.getLastD] at *
      exact List.mem_cons_of_mem _ hm

theorem mem_of_mem_splitOnChar {sep : Char} {cs : List Char} {p : List Char}
    {c : Char} (hp : p ∈ splitOnChar sep cs) (hc : c ∈ p) : c ∈ cs := by
  induction cs generalizing p with
  | nil =>
    have hpe : p = [] := by
      simpa [splitOnChar] using hp
    rw [hpe] at hc
    simp at hc
  | cons a rest ih =>
    simp only [splitOnChar] at hp
    by_cases h : a = sep
    · rw [if_pos h] at hp
      rcases List.mem_cons.mp hp with hp | hp
      · rw [hp] at hc; simp at hc
      · exact List.mem_cons_of_mem _ (ih hp hc)
    · rw [if_neg h] at hp
      cases hr : splitOnChar sep rest with
      | nil => exact absurd hr (splitOnChar_ne_nil sep rest)
      | cons q t =>
        rw [hr] at hp
        rcases List.mem_cons.mp hp with hp | hp
        · rw [hp] at hc
          rcases List.mem_cons.mp hc with hc | hc
          · exact hc ▸ List.mem_cons_self _ _
          · exact List.mem_cons_of_mem _ (ih (hr ▸ List.mem_cons_self q t) hc)
        · exact List.mem_cons_of_mem _ (ih (hr ▸ List.mem_cons_of_mem q hp) hc)

theorem mem_joinDots {parts : List (List Char)} {c : Char}
    (hc : c ∈ joinDots parts) : c = '.' ∨ ∃ p ∈ parts, c ∈ p := by
  induction parts with
  | nil => simp [joinDots] at hc
  | cons p ps ih =>
    cases ps with
    | nil =>
      simp only [joinDots] at hc
      exact Or.inr ⟨p, List.mem_cons_self _ _, hc⟩
    | cons q qs =>
      have hc2 : c ∈ p ++ '.' :: joinDots (q :: qs) := hc
      rcases List.mem_append.mp hc2 with h | h
      · exact Or.inr ⟨p, List.mem_cons_self _ _, h⟩
      · rcases List.mem_cons.mp h with h | h
        · exact Or.inl h
        · rcases ih h with h2 | ⟨r, hr, hcr⟩
          · exact Or.inl h2
          · exact Or.inr ⟨r, List.mem_cons_of_mem _ hr, hcr⟩

theorem sanitizeChars_no_illegal {cs : List Char} {c : Char}
    (hc : c ∈ sanitizeChars cs) : illegalChar c = false := by
  have kernel : ∀ d ∈ cs.map (fun x => if illegalChar x then underChar else x),
      illegalChar d = false := by
    intro d hd
    rcases List.mem_map.mp hd with ⟨x, _, hx⟩
    by_cases hix : illegalChar x
    · rw [← hx]; simp [hix]; decide
    · rw [← hx]; simp [hix]
  unfold sanitizeChars at hc
  set cleaned := cs.map (fun x => if illegalChar x then underChar else x) with hcl
  by_cases hlen : 100 < cleaned.length
  · simp only [hlen, if_true] at hc
    by_cases hparts : 1 < (splitOnChar '.' cleaned).length
    · simp only [hparts, if_true] at hc
      rcases List.mem_append.mp hc with h | h
      · have hjoin := List.mem_of_mem_take h
        rcases mem_joinDots hjoin with h | ⟨p, hp, hcp⟩
        · subst h; decide
        · exact kernel c (mem_of_mem_splitOnChar
            (List.dropLast_sublist _ |>.mem hp) hcp)
      · rcases List.mem_cons.mp h with h | h
        · subst h; decide
        · have hlast : (splitOnChar '.' cleaned).getLastD [] ∈
              splitOnChar '.' cleaned :=
            getLastD_mem [] (splitOnChar_ne_nil _ _)
          exact kernel c (mem_of_mem_splitOnChar hlast h)
    · simp only [hparts, if_false] at hc
      exact kernel c (List.mem_of_mem_take hc)
  · simp only [hlen, if_false] at hc
    exact kernel c hc

theorem length_sanitizeChars_le (cs : List Char) :
    (sanitizeChars cs).length ≤
      max 100 (96 + (if 1 < (splitOnChar '.'
          (cs.map (fun c => if illegalChar c then underChar else c))).length
        then ((splitOnChar '.'
          (cs.map (fun c => if illegalChar c then underChar else c))).getLastD []).length
        else 0)) := by
  unfold sanitizeChars
  set cleaned := cs.map (fun c => if illegalChar c then underChar else c) with hcl
  by_cases hlen : 100 < cleaned.length
  · simp only [hlen, if_true]
    by_cases hparts : 1 < (splitOnChar '.' cleaned).length
    · simp only [hparts, if_true]
      have h1 : (List.take 95 (joinDots (splitOnChar '.' cleaned).dropLast)).length ≤ 95 := by
        rw [List.length_take]
        exact min_le_left _ _
      have h2 : (List.take 95 (joinDots (splitOnChar '.' cleaned).dropLast) ++
          '.' :: (splitOnChar '.' cleaned).getLastD []).length ≤
          96 + ((splitOnChar '.' cleaned).getLastD []).length := by
        rw [List.length_append, List.length_cons]
        omega
      exact le_trans h2 (le_max_right _ _)
    · simp only [hparts, if_false]
      refine le_trans ?_ (le_max_left _ _)
      rw [List.length_take]
      exact le_trans (min_le_left _ _) (by omega)
  · simp only [hlen, if_false]
    exact le_trans (le_of_not_lt hlen) (le_max_left _ _)

/-- **C1.** `_sanitize_filename` is a total Lean function, hence deterministic
in its inputs, and no character of the illegal class survives into the output.
The length bound of the claim holds only in an amended form: the output length
is bounded by `max 100 (96 + e)` where `e` is the length of the final
dot-delimited extension of the cleaned name, and is therefore at most 100
whenever that extension is at most 4 characters.  (When the extension is
longer, the output exceeds 100 characters: see the counterexample.) -/
theorem C1_sanitize_filename_amended (s : String) :
    (∀ c ∈ (sanitize_filename s).toList, illegalChar c = false) ∧
    (sanitize_filename s).length ≤ max 100 (96 + sanitizeExtLen s) ∧
    (sanitizeExtLen s ≤ 4 → (sanitize_filename s).length ≤ 100) := by
  refine ⟨?_, ?_, ?_⟩
  · intro c hc
    exact sanitizeChars_no_illegal hc
  · exact length_sanitizeChars_le s.toList
  · intro h4
    have hb := length_sanitizeChars_le s.toList
    have hx : (sanitize_filename s).length ≤ max 100 (96 + sanitizeExtLen s) := hb
    have : max 100 (96 + sanitizeExtLen s) ≤ 100 := by omega
    omega

/-- **C1, counterexample.** On `c1Input` the sanitizer preserves the whole
120-character extension, so the output has 122 characters, refuting the
claimed bound of at most 100 characters. -/
theorem C1_counterexample :
    (sanitize_filename c1Input).length = 122 ∧
    ¬ ((sanitize_filename c1Input).length ≤ 100) := by
  constructor
  · decide
  · decide

/-- **C1, witness.** The amended theorem applied at a concrete long filename
with a short extension: its sanitized form stays within 100 characters. -/
theorem C1_witness :
    sanitizeExtLen c1WitnessInput ≤ 4 ∧
    (sanitize_filename c1WitnessInput).length ≤ 100 :=
  ⟨by decide, (C1_sanitize_filename_amended c1WitnessInput).2.2 (by decide)⟩

theorem lastMatchAux_of_no_match (p : String → Bool) (l : List String) :
    ∀ i acc, (∀ j, j < l.length → p (l.getD j "") = false) →
    lastMatchAux p i acc l = acc := by
  induction l with
  | nil => intro i acc _; rfl
  | cons h t ih =>
    intro i acc hno
    have h0 : p h = false := by
      have := hno 0 (by simp)
      simpa using this
    simp only [lastMatchAux, h0, if_false]
    exact ih (i + 1) acc (fun j hj => by
      have := hno (j + 1) (by simpa using Nat.succ_lt_succ hj)
      simpa using this)

theorem lastMatchAux_of_last_match (p : String → Bool) (l : List String) :
    ∀ k i acc, k < l.length → p (l.getD k "") = true →
    (∀ j, k < j → j < l.length → p (l.getD j "") = false) →
    lastMatchAux p i acc l = some (i + k) := by
  induction l with
  | nil => intro k i acc hk _ _; simp at hk
  | cons h t ih =>
    intro k i acc hk hpk hafter
    cases k with
    | zero =>
      have hph : p h = true := by simpa using hpk
      simp only [lastMatchAux, hph, if_true]
      have hrest : ∀ j, j < t.length → p (t.getD j "") = false := by
        intro j hj
        have := hafter (j + 1) (Nat.succ_pos j) (by simpa using Nat.succ_lt_succ hj)
        simpa using this
      rw [lastMatchAux_of_no_match p t (i + 1) (some i) hrest]
      simp
    | succ k2 =>
      have hk2 : k2 < t.length := by simpa using Nat.lt_of_succ_lt_succ hk
      have hpk2 : p (t.getD k2 "") = true := by simpa using hpk
      have hafter2 : ∀ j, k2 < j → j < t.length → p (t.getD j "") = false := by
        intro j hj hjl
        have := hafter (j + 1) (Nat.succ_lt_succ hj) (by simpa using Nat.succ_lt_succ hjl)
        simpa using this
      simp only [lastMatchAux]
      rw [ih k2 (i + 1) _ hk2 hpk2 hafter2]
      congr 1
      omega

/-- **C2, amended.** The PO and SKU columns of the content-key index are
located by case-insensitive substring match on the header names (the
predicates `poMatch` and `skuMatch`), but for each of the two the LAST
matching header is the one used, not the first: the header loop of
`_get_processed_files_from_sheet` overwrites without breaking.  `p`
ranges over the header predicates, covering both columns. -/
theorem C2_last_match_amended (p : String → Bool) (hs : List String) (k : Nat) :
    ((k < hs.length ∧ p (hs.getD k "") = true ∧
        (∀ j, k < j → j < hs.length → p (hs.getD j "") = false)) →
      lastMatchIdx p hs = some k) ∧
    ((∀ j, j < hs.length → p (hs.getD j "") = false) →
      lastMatchIdx p hs = none) := by
  constructor
  · rintro ⟨hk, hpk, hafter⟩
    have := lastMatchAux_of_last_match p hs k 0 none hk hpk hafter
    simpa [lastMatchIdx] using this
  · intro hno
    exact lastMatchAux_of_no_match p hs 0 none hno

/-- **C2, counterexample.** With two headers both containing `PO`, the code
locates the second (last) one while the claim says the first wins; on a
concrete sheet the key is therefore drawn from the second column. -/
theorem C2_counterexample :
    lastMatchIdx poMatch ["PO A", "PO B"] = some 1 ∧
    firstMatchIdx poMatch ["PO A", "PO B"] = some 0 ∧
    lastMatchIdx poMatch ["PO A", "PO B"] ≠ firstMatchIdx poMatch ["PO A", "PO B"] ∧
    getProcessedKeys [["PO", "PO X", "SKU"], ["A", "B", "S"]] = ["B|S"] := by
  refine ⟨by decide, by decide, by decide, by decide⟩

/-- **C2, witness.** The amended theorem applied at a concrete header list:
the only matching header is located. -/
theorem C2_witness : lastMatchIdx poMatch ["x", "PO"] = some 1 := by
  apply (C2_last_match_amended poMatch ["x", "PO"] 1).1
  refine ⟨by decide, by decide, ?_⟩
  intro j h1 h2
  simp only [List.length_cons, List.length_nil] at h2
  omega

/-- **C3, amended.** On an authentication failure the run aborts with the
failure status and the summary save is still attempted, but the
notification send is NOT attempted (the claim said both are).  On every
run that passes authentication, both the summary save and the notification
send are attempted, whatever the success of either (the environment fields
`summaryOk` and `emailOk` are arbitrary), so a failure of one never
suppresses the other there. -/
theorem C3_run_workflow_amended (env : RunEnv) :
    (env.authOk = false →
      (run_workflow env).status = "Failed - Authentication Error" ∧
      (run_workflow env).returnValue = false ∧
      (run_workflow env).summaryAttempted = true ∧
      (run_workflow env).notificationAttempted = false) ∧
    (env.authOk = true →
      (run_workflow env).summaryAttempted = true ∧
      (run_workflow env).notificationAttempted = true) := by
  constructor
  · intro h
    simp [run_workflow, h]
  · intro h
    simp [run_workflow, h]

/-- **C3, counterexample.** A run whose authentication fails (all other
steps able to succeed) does not attempt the notification send, refuting the
claim that summary save and notification send are both attempted. -/
theorem C3_counterexample :
    (run_workflow { authOk := false, summaryOk := true, emailOk := true
      }).notificationAttempted = false := by
  decide

/-- **C3, witness.** The amended theorem applied at concrete environments:
an authentication failure still attempts the summary, and a successful
authentication attempts both even when the summary save itself would
fail. -/
theorem C3_witness :
    (run_workflow { authOk := false, summaryOk := true, emailOk := true
      }).summaryAttempted = true ∧
    (run_workflow { authOk := true, summaryOk := false, emailOk := false
      }).notificationAttempted = true :=
  ⟨((C3_run_workflow_amended
      { authOk := false, summaryOk := true, emailOk := true }).1 rfl).2.2.1,
   ((C3_run_workflow_amended
      { authOk := true, summaryOk := false, emailOk := false }).2 rfl).2⟩

/-! Monotonicity of the in-run index. -/

theorem processFile_existing_mono (st : ExcelRunState) (f : XFile) {k : String}
    (hk : k ∈ st.existing) : k ∈ (processFile st f).existing := by
  unfold processFile
  split
  · simpa using hk
  · split
    · split
      · simpa using hk
      · split
        · exact List.mem_append_left _ hk
        · simpa using hk
    · split
      · simpa using hk
      · simpa using hk

theorem processFile_sources_mono (st : ExcelRunState) (f : XFile) {n : String}
    (hn : n ∈ st.sheetSources) : n ∈ (processFile st f).sheetSources := by
  unfold processFile
  split
  · simpa using hn
  · split
    · split
      · simpa using hn
      · split
        · exact List.mem_append_left _ hn
        · simpa using hn
    · split
      · exact List.mem_append_left _ hn
      · simpa using hn

theorem foldl_existing_mono (l : List XFile) (st : ExcelRunState) {k : String}
    (hk : k ∈ st.existing) : k ∈ (l.foldl processFile st).existing := by
  induction l generalizing st with
  | nil => simpa using hk
  | cons f t ih => exact ih _ (processFile_existing_mono st f hk)

theorem foldl_sources_mono (l : List XFile) (st : ExcelRunState) {n : String}
    (hn : n ∈ st.sheetSources) : n ∈ (l.foldl processFile st).sheetSources := by
  induction l generalizing st with
  | nil => simpa using hn
  | cons f t ih => exact ih _ (processFile_sources_mono st f hn)

theorem processFile_skipped_add (st : ExcelRunState) (f : XFile) (n : Nat) :
    processFile { st with skipped := st.skipped + n } f =
    { processFile st f with skipped := (processFile st f).skipped + n } := by
  by_cases h1 : f.table = []
  · simp [processFile, h1]
  · cases hp : f.poIdx with
    | none => cases ha : f.appendOk <;> simp [processFile, h1, hp, ha]
    | some p =>
      cases hs : f.skuIdx with
      | none => cases ha : f.appendOk <;> simp [processFile, h1, hp, hs, ha]
      | some s =>
        by_cases h2 : keptRows p s st.existing f.table = []
        · simp [processFile, h1, hp, hs, h2]
          omega
        · cases ha : f.appendOk <;> simp [processFile, h1, hp, hs, h2, ha]

theorem foldl_skipped_add (l : List XFile) (st : ExcelRunState) (n : Nat) :
    l.foldl processFile { st with skipped := st.skipped + n } =
    { l.foldl processFile st with
        skipped := (l.foldl processFile st).skipped + n } := by
  induction l generalizing st with
  | nil => rfl
  | cons f t ih =>
    simp only [List.foldl_cons]
    rw [processFile_skipped_add, ih]

/-- **C5.** A candidate file whose name is already in the
`source_file_name` set is dropped by the pre-filter before any parsing:
relative to the same run without it, only `files_skipped` moves, by exactly
one, and nothing else of the run state changes.  A parsed file all of whose
rows carry keys already in `existing_data` makes the loop body increment
`files_skipped` and leave everything else, `files_processed` included,
unchanged. -/
theorem C5_file_skip :
    (∀ (sheet : SheetState) (files : List XFile) (f : XFile),
      f.name ∈ sheet.sources →
      excelToProcess sheet (f :: files) = excelToProcess sheet files ∧
      runExcel sheet (f :: files) =
        { runExcel sheet files with
            skipped := (runExcel sheet files).skipped + 1 }) ∧
    (∀ (st : ExcelRunState) (f : XFile) (p s : Nat),
      f.table ≠ [] → f.poIdx = some p → f.skuIdx = some s →
      (∀ r ∈ f.table, rowKeyAt p s r ∈ st.existing) →
      processFile st f = { st with skipped := st.skipped + 1 }) := by
  constructor
  · intro sheet files f h
    have hpf : excelToProcess sheet (f :: files) = excelToProcess sheet files := by
      simp [excelToProcess, h]
    refine ⟨hpf, ?_⟩
    have hinit : excelInit sheet (f :: files) =
        { excelInit sheet files with
            skipped := (excelInit sheet files).skipped + 1 } := by
      simp [excelInit, h]
    rw [runExcel, runExcel, hpf, hinit, foldl_skipped_add]
  · intro st f p s h1 hp hs hall
    have hk : keptRows p s st.existing f.table = [] := by
      rw [keptRows, List.filter_eq_nil_iff]
      intro r hr
      simp [hall r hr]
    simp [processFile, h1, hp, hs, hk]

/-- **C5, witness.** The theorem applied at concrete inputs: a file with an
already-recorded name only bumps the skip counter of the run, and a file of
pure duplicates makes the loop body bump only the skip counter. -/
theorem C5_witness :
    runExcel c5Sheet [c5File] =
      { runExcel c5Sheet ([] : List XFile) with
          skipped := (runExcel c5Sheet ([] : List XFile)).skipped + 1 } ∧
    processFile c5State c5DupFile = { c5State with skipped := 1 } :=
  ⟨(C5_file_skip.1 c5Sheet [] c5File (by decide)).2,
   C5_file_skip.2 c5State c5DupFile 0 1 (by decide) rfl rfl (by decide)⟩

/-- **C9.** Building the content-key index is total: the empty dataset
yields the empty set, a dataset whose headers match neither the PO
predicate nor the SKU predicate (in either column) yields the empty set,
and a first file processed against an empty dataset is fully accepted:
every one of its rows is appended and it counts as processed. -/
theorem C9_index_total :
    getProcessedKeys [] = [] ∧
    (∀ (hs : List String) (rows : List (List String)),
      lastMatchIdx poMatch hs = none ∨ lastMatchIdx skuMatch hs = none →
      getProcessedKeys (hs :: rows) = []) ∧
    (∀ (f : XFile) (p s : Nat),
      f.table ≠ [] → f.poIdx = some p → f.skuIdx = some s →
      f.appendOk = true →
      (runExcel { keys := getProcessedKeys [], sources := getSourceNames [] }
          [f]).processed = 1 ∧
      (runExcel { keys := getProcessedKeys [], sources := getSourceNames [] }
          [f]).log = [(f, f.table)]) := by
  refine ⟨rfl, ?_, ?_⟩
  · intro hs rows h
    cases hp : lastMatchIdx poMatch hs with
    | none => simp [getProcessedKeys, hp]
    | some p =>
      cases hq : lastMatchIdx skuMatch hs with
      | none => simp [getProcessedKeys, hp, hq]
      | some q =>
        rcases h with h | h
        · rw [hp] at h; cases h
        · rw [hq] at h; cases h
  · intro f p s h1 hp hs ha
    have hto : excelToProcess
        { keys := getProcessedKeys [], sources := getSourceNames [] } [f] = [f] := by
      simp [excelToProcess, getSourceNames]
    have hkept : keptRows p s
        (excelInit { keys := getProcessedKeys [], sources := getSourceNames [] }
          [f]).existing f.table = f.table := by
      rw [keptRows, List.filter_eq_self]
      intro r hr
      simp [excelInit, getProcessedKeys]
    constructor
    · rw [runExcel, hto]
      simp only [List.foldl_cons, List.foldl_nil]
      rw [processFile]
      simp only [h1, if_false, hp, hs, hkept]
      simp [h1, ha, excelInit]
    · rw [runExcel, hto]
      simp only [List.foldl_cons, List.foldl_nil]
      rw [processFile]
      simp only [h1, if_false, hp, hs, hkept]
      simp [h1, ha, excelInit]

/-- **C9, witness.** The theorem applied at concrete inputs: header lists
with no PO or no SKU match give the empty index, and a concrete first file
is fully accepted against the empty dataset. -/
theorem C9_witness :
    getProcessedKeys [["name", "qty"], ["a", "b"]] = [] ∧
    (runExcel { keys := getProcessedKeys [], sources := getSourceNames [] }
        [c9File]).processed = 1 ∧
    (runExcel { keys := getProcessedKeys [], sources := getSourceNames [] }
        [c9File]).log = [(c9File, c9File.table)] :=
  ⟨C9_index_total.2.1 ["name", "qty"] [["a", "b"]] (Or.inl (by decide)),
   (C9_index_total.2.2 c9File 0 1 (by decide) rfl rfl rfl).1,
   (C9_index_total.2.2 c9File 0 1 (by decide) rfl rfl rfl).2⟩

theorem createFolder_remote_mono (st : GmailState) (nm : String)
    {f : Option String} {n : String} (h : n ∈ st.remote f) :
    n ∈ (createFolder st nm).remote f := by
  unfold createFolder
  split
  · exact h
  · by_cases hf : f = none
    · subst hf
      simp only [if_pos rfl]
      exact List.mem_cons_of_mem _ h
    · simpa only [if_neg hf] using h

theorem uploadFile_remote_mono (st : GmailState) (nm fname : String)
    {f : Option String} {n : String} (h : n ∈ st.remote f) :
    n ∈ (uploadFile st nm fname).remote f := by
  unfold uploadFile
  by_cases hf : f = some nm
  · subst hf
    simp only [if_pos rfl]
    exact List.mem_cons_of_mem _ h
  · simpa only [if_neg hf] using h

theorem folderListing_snd_remote (st : GmailState) (n : String) :
    ((folderListing st n).2).remote = st.remote := by
  unfold folderListing
  split <;> rfl

theorem processAttachment_remote_mono (st : GmailState) (a : Attachment)
    {f : Option String} {n : String} (h : n ∈ st.remote f) :
    n ∈ (processAttachment st a).remote f := by
  by_cases he : isExcelName a.filename
  · have h1 := createFolder_remote_mono st (attachmentFolder a) h
    have h2 : n ∈ ((folderListing (createFolder st (attachmentFolder a))
        (attachmentFolder a)).2).remote f := by
      rw [folderListing_snd_remote]; exact h1
    simp only [processAttachment, he, if_true]
    split
    · exact h2
    · split
      · exact uploadFile_remote_mono _ _ _ h2
      · exact h2
  · simpa only [processAttachment, he, if_false] using h

theorem cacheSub_createFolder (st : GmailState) (nm : String)
    (h : cacheSub st) : cacheSub (createFolder st nm) := by
  unfold createFolder
  split
  · exact h
  · intro f l hfl n hn
    by_cases hf : f = none
    · subst hf
      simp at hfl
    · simp only [if_neg hf] at hfl
      simp only [if_neg hf]
      exact h f l hfl n hn

theorem cacheSub_folderListing (st : GmailState) (n : String)
    (h : cacheSub st) : cacheSub (folderListing st n).2 := by
  rcases hc : st.cache (some n) with _ | l0
  · intro f l hfl m hm
    simp only [folderListing, hc] at hfl ⊢
    by_cases hf : f = some n
    · subst hf
      simp only [if_pos rfl] at hfl
      have : st.remote (some n) = l := by
        injection hfl
      rw [← this] at hm
      exact hm
    · simp only [if_neg hf] at hfl
      exact h f l hfl m hm
  · simpa only [folderListing, hc] using h

theorem cacheSub_uploadFile (st : GmailState) (nm fname : String)
    (h : cacheSub st) : cacheSub (uploadFile st nm fname) := by
  intro f l hfl m hm
  unfold uploadFile at hfl ⊢
  by_cases hf : f = some nm
  · subst hf
    simp only [if_pos rfl] at hfl ⊢
    rcases hmap : st.cache (some nm) with _ | l0
    · rw [hmap] at hfl
      simp at hfl
    · rw [hmap] at hfl
      simp only [Option.map] at hfl
      have hl : fname :: l0 = l := by injection hfl
      rw [← hl] at hm
      rcases List.mem_cons.mp hm with hm | hm
      · exact hm ▸ List.mem_cons_self _ _
      · exact List.mem_cons_of_mem _ (h (some nm) l0 hmap m hm)
  · simp only [if_neg hf] at hfl ⊢
    exact h f l hfl m hm

theorem cacheSub_processAttachment (st : GmailState) (a : Attachment)
    (h : cacheSub st) : cacheSub (processAttachment st a) := by
  by_cases he : isExcelName a.filename
  · have h1 := cacheSub_createFolder st (attachmentFolder a) h
    have h2 := cacheSub_folderListing _ (attachmentFolder a) h1
    simp only [processAttachment, he, if_true]
    split
    · exact h2
    · split
      · exact cacheSub_uploadFile _ _ _ h2
      · exact h2
  · simpa only [processAttachment, he, if_false] using h

theorem effMem_createFolder (st : GmailState) (nm : String)
    {f : Option String} {n : String} (hsub : cacheSub st)
    (h : effMem st f n) : effMem (createFolder st nm) f n := by
  unfold createFolder
  split
  · exact h
  · unfold effMem at h ⊢
    by_cases hf : f = none
    · subst hf
      simp only [if_pos rfl]
      have hn : n ∈ st.remote none := by
        rcases hc : st.cache none with _ | l
        · rw [hc] at h; exact h
        · rw [hc] at h; exact hsub none l hc n h
      exact List.mem_cons_of_mem _ hn
    · simp only [if_neg hf]
      exact h

theorem effMem_folderListing (st : GmailState) (n0 : String)
    {f : Option String} {n : String} (h : effMem st f n) :
    effMem (folderListing st n0).2 f n := by
  rcases hc : st.cache (some n0) with _ | l
  · unfold effMem at h ⊢
    simp only [folderListing, hc]
    by_cases hf : f = some n0
    · subst hf
      rw [hc] at h
      simp only [if_pos rfl]
      exact h
    · simp only [if_neg hf]
      exact h
  · simpa only [folderListing, hc] using h

theorem effMem_uploadFile (st : GmailState) (nm fname : String)
    {f : Option String} {n : String} (h : effMem st f n) :
    effMem (uploadFile st nm fname) f n := by
  unfold effMem at h ⊢
  unfold uploadFile
  by_cases hf : f = some nm
  · subst hf
    simp only [if_pos rfl]
    rcases hc : st.cache (some nm) with _ | l <;> rw [hc] at h
    · simp only [hc, Option.map]
      exact List.mem_cons_of_mem _ h
    · simp only [hc, Option.map]
      exact List.mem_cons_of_mem _ h
  · simp only [if_neg hf]
    rcases hc : st.cache f with _ | l <;> rw [hc] at h <;> exact h

theorem effMem_processAttachment (st : GmailState) (a : Attachment)
    {f : Option String} {n : String} (hsub : cacheSub st)
    (h : effMem st f n) : effMem (processAttachment st a) f n := by
  by_cases he : isExcelName a.filename
  · have h1 := effMem_createFolder st (attachmentFolder a) hsub h
    have hsub1 := cacheSub_createFolder st (attachmentFolder a) hsub
    have h2 := effMem_folderListing _ (attachmentFolder a) h1
    simp only [processAttachment, he, if_true]
    split
    · exact h2
    · split
      · exact effMem_uploadFile _ _ _ h2
      · exact h2
  · simpa only [processAttachment, he, if_false] using h

theorem effMem_foldGmail (atts : List Attachment) (st : GmailState)
    {f : Option String} {n : String} (hsub : cacheSub st)
    (h : effMem st f n) :
    effMem (atts.foldl processAttachment st) f n := by
  induction atts generalizing st with
  | nil => exact h
  | cons a t ih =>
    exact ih _ (cacheSub_processAttachment st a hsub)
      (effMem_processAttachment st a hsub h)

theorem processFile_logInv (st : ExcelRunState) (f : XFile) (h : logInv st) :
    logInv (processFile st f) := by
  by_cases h1 : f.table = []
  · have he : processFile st f = { st with failed := st.failed + 1 } := by
      simp [processFile, h1]
    rw [he]
    exact h
  · cases hpidx : f.poIdx with
    | none =>
      cases ha : f.appendOk
      · have he : processFile st f = { st with failed := st.failed + 1 } := by
          simp [processFile, h1, hpidx, ha]
        rw [he]; exact h
      · have he : processFile st f =
            { st with
              sheetSources := st.sheetSources ++ [f.name]
              processed := st.processed + 1
              log := st.log ++ [(f, f.table)] } := by
          simp [processFile, h1, hpidx, ha]
        rw [he]
        intro e he2 p s hp hs r hr hnb
        rcases List.mem_append.mp he2 with h2 | h2
        · exact h e h2 p s hp hs r hr hnb
        · have he3 : e = (f, f.table) := by simpa using h2
          rw [he3] at hp
          rw [hpidx] at hp
          cases hp
    | some p0 =>
      cases hsidx : f.skuIdx with
      | none =>
        cases ha : f.appendOk
        · have he : processFile st f = { st with failed := st.failed + 1 } := by
            simp [processFile, h1, hpidx, hsidx, ha]
          rw [he]; exact h
        · have he : processFile st f =
              { st with
                sheetSources := st.sheetSources ++ [f.name]
                processed := st.processed + 1
                log := st.log ++ [(f, f.table)] } := by
            simp [processFile, h1, hpidx, hsidx, ha]
          rw [he]
          intro e he2 p s hp hs r hr hnb
          rcases List.mem_append.mp he2 with h2 | h2
          · exact h e h2 p s hp hs r hr hnb
          · have he3 : e = (f, f.table) := by simpa using h2
            rw [he3] at hs
            rw [hsidx] at hs
            cases hs
      | some s0 =>
        by_cases h2 : keptRows p0 s0 st.existing f.table = []
        · have he : processFile st f = { st with skipped := st.skipped + 1 } := by
            simp [processFile, h1, hpidx, hsidx, h2]
          rw [he]
          exact h
        · cases ha : f.appendOk
          · have he : processFile st f = { st with failed := st.failed + 1 } := by
              simp [processFile, h1, hpidx, hsidx, h2, ha]
            rw [he]; exact h
          · have he : processFile st f =
                { st with
                  existing := st.existing ++
                    ((keptRows p0 s0 st.existing f.table).filter
                      (fun r => rowNonblankAt p0 s0 r)).map (rowKeyAt p0 s0)
                  sheetSources := st.sheetSources ++ [f.name]
                  processed := st.processed + 1
                  log := st.log ++ [(f, keptRows p0 s0 st.existing f.table)] } := by
              simp [processFile, h1, hpidx, hsidx, h2, ha]
            rw [he]
            intro e he2 p s hp hs r hr hnb
            rcases List.mem_append.mp he2 with h3 | h3
            · exact List.mem_append_left _ (h e h3 p s hp hs r hr hnb)
            · have he3 : e = (f, keptRows p0 s0 st.existing f.table) := by
                simpa using h3
              rw [he3] at hp hs hr
              have hpp : p = p0 := by rw [hpidx] at hp; injection hp; omega
              have hss : s = s0 := by rw [hsidx] at hs; injection hs; omega
              subst hpp; subst hss
              refine List.mem_append_right _ ?_
              exact List.mem_map.mpr
                ⟨r, List.mem_filter.mpr ⟨hr, hnb⟩, rfl⟩

theorem processFile_logPairwise (st : ExcelRunState) (f : XFile)
    (hinv : logInv st) (hpw : st.log.Pairwise logRel) :
    (processFile st f).log.Pairwise logRel := by
  by_cases h1 : f.table = []
  · have he : processFile st f = { st with failed := st.failed + 1 } := by
      simp [processFile, h1]
    rw [he]; exact hpw
  · cases hpidx : f.poIdx with
    | none =>
      cases ha : f.appendOk
      · have he : processFile st f = { st with failed := st.failed + 1 } := by
          simp [processFile, h1, hpidx, ha]
        rw [he]; exact hpw
      · have he : processFile st f =
            { st with
              sheetSources := st.sheetSources ++ [f.name]
              processed := st.processed + 1
              log := st.log ++ [(f, f.table)] } := by
          simp [processFile, h1, hpidx, ha]
        rw [he]
        refine List.pairwise_append.mpr ⟨hpw, List.pairwise_singleton _ _, ?_⟩
        intro e he2 e2 he3
        have he4 : e2 = (f, f.table) := by simpa using he3
        intro p s p2 s2 hp hs hp2 hs2
        rw [he4] at hp2
        rw [hpidx] at hp2
        cases hp2
    | some p0 =>
      cases hsidx : f.skuIdx with
      | none =>
        cases ha : f.appendOk
        · have he : processFile st f = { st with failed := st.failed + 1 } := by
            simp [processFile, h1, hpidx, hsidx, ha]
          rw [he]; exact hpw
        · have he : processFile st f =
              { st with
                sheetSources := st.sheetSources ++ [f.name]
                processed := st.processed + 1
                log := st.log ++ [(f, f.table)] } := by
            simp [processFile, h1, hpidx, hsidx, ha]
          rw [he]
          refine List.pairwise_append.mpr ⟨hpw, List.pairwise_singleton _ _, ?_⟩
          intro e he2 e2 he3
          have he4 : e2 = (f, f.table) := by simpa using he3
          intro p s p2 s2 hp hs hp2 hs2
          rw [he4] at hs2
          rw [hsidx] at hs2
          cases hs2
      | some s0 =>
        by_cases h2 : keptRows p0 s0 st.existing f.table = []
        · have he : processFile st f = { st with skipped := st.skipped + 1 } := by
            simp [processFile, h1, hpidx, hsidx, h2]
          rw [he]; exact hpw
        · cases ha : f.appendOk
          · have he : processFile st f = { st with failed := st.failed + 1 } := by
              simp [processFile, h1, hpidx, hsidx, h2, ha]
            rw [he]; exact hpw
          · have he : processFile st f =
                { st with
                  existing := st.existing ++
                    ((keptRows p0 s0 st.existing f.table).filter
                      (fun r => rowNonblankAt p0 s0 r)).map (rowKeyAt p0 s0)
                  sheetSources := st.sheetSources ++ [f.name]
                  processed := st.processed + 1
                  log := st.log ++ [(f, keptRows p0 s0 st.existing f.table)] } := by
              simp [processFile, h1, hpidx, hsidx, h2, ha]
            rw [he]
            refine List.pairwise_append.mpr ⟨hpw, List.pairwise_singleton _ _, ?_⟩
            intro e he2 e2 he3
            have he4 : e2 = (f, keptRows p0 s0 st.existing f.table) := by
              simpa using he3
            intro p s p2 s2 hp hs hp2 hs2 r hr hnb r2 hr2
            rw [he4] at hp2 hs2 hr2
            have hpp : p2 = p0 := by rw [hpidx] at hp2; injection hp2; omega
            have hss : s2 = s0 := by rw [hsidx] at hs2; injection hs2; omega
            have hkey : rowKeyAt p s r ∈ st.existing :=
              hinv e he2 p s hp hs r hr hnb
            have hnot : rowKeyAt p0 s0 r2 ∉ st.existing := by
              have := List.mem_filter.mp hr2
              simpa using this.2
            rw [hpp, hss]
            intro heq
            rw [heq] at hnot
            exact hnot hkey

theorem foldl_logPairwise (l : List XFile) (st : ExcelRunState)
    (hinv : logInv st) (hpw : st.log.Pairwise logRel) :
    logInv (l.foldl processFile st) ∧
    (l.foldl processFile st).log.Pairwise logRel := by
  induction l generalizing st with
  | nil => exact ⟨hinv, hpw⟩
  | cons f t ih =>
    exact ih _ (processFile_logInv st f hinv)
      (processFile_logPairwise st f hinv hpw)

/-- **C4.** The in-run index only grows and supports cross-file duplicate
protection: (i) every content key of `existing_data` survives any sequence
of loop steps; (ii) every recorded source name survives; (iii) in a full
Excel run the appended batches are pairwise protected — a row appended with
a non-blank key is never appended again from a later file, because the key
joins `existing_data` right after its file's append and before the next
file is examined; (iv) on the Gmail side the answer of the per-folder
name index is monotone across attachments, including across the folder
creations that delete a cached listing (the rebuilt listing is drawn from
the remote state, which only grows). -/
theorem C4_index_monotone :
    (∀ (st : ExcelRunState) (l : List XFile) (k : String),
      k ∈ st.existing → k ∈ (l.foldl processFile st).existing) ∧
    (∀ (st : ExcelRunState) (l : List XFile) (n : String),
      n ∈ st.sheetSources → n ∈ (l.foldl processFile st).sheetSources) ∧
    (∀ (sheet : SheetState) (files : List XFile),
      (runExcel sheet files).log.Pairwise logRel) ∧
    (∀ (st : GmailState) (atts : List Attachment) (f : Option String)
      (n : String), cacheSub st → effMem st f n →
      effMem (atts.foldl processAttachment st) f n) := by
  refine ⟨?_, ?_, ?_, ?_⟩
  · intro st l k hk
    exact foldl_existing_mono l st hk
  · intro st l n hn
    exact foldl_sources_mono l st hn
  · intro sheet files
    have hinv : logInv (excelInit sheet files) := by
      intro e he
      simp [excelInit] at he
    have hpw : (excelInit sheet files).log.Pairwise logRel := by
      simp [excelInit]
    exact (foldl_logPairwise _ _ hinv hpw).2
  · intro st atts f n hsub h
    exact effMem_foldGmail atts st hsub h

/-- **C4, witness.** The theorem applied at concrete inputs: a key present
in `existing_data` survives a concrete loop step, and a name visible in the
folder index stays visible after a concrete attachment is processed. -/
theorem C4_witness :
    "P|S" ∈ ([c5DupFile].foldl processFile c5State).existing ∧
    effMem ([c4Att].foldl processAttachment c4Drive) none "seed" :=
  ⟨C4_index_monotone.1 c5State [c5DupFile] "P|S" (by decide),
   C4_index_monotone.2.2.2 c4Drive [c4Att] none "seed"
     (by intro f l hl m hm; cases hl)
     (by simp [effMem, c4Drive])⟩

theorem processFile_inert (st : ExcelRunState) (f : XFile)
    (h : fileInert st.existing f) :
    (processFile st f).existing = st.existing ∧
    (processFile st f).sheetSources = st.sheetSources ∧
    (processFile st f).log = st.log := by
  by_cases h1 : f.table = []
  · simp [processFile, h1]
  · rcases h with h | ⟨p, s, hp, hs, hall⟩ | h
    · exact absurd h h1
    · have hk : keptRows p s st.existing f.table = [] := by
        rw [keptRows, List.filter_eq_nil_iff]
        intro r hr
        simp [hall r hr]
      simp [processFile, h1, hp, hs, hk]
    · cases hpi : f.poIdx with
      | none => simp [processFile, h1, hpi, h]
      | some p =>
        cases hsi : f.skuIdx with
        | none => simp [processFile, h1, hpi, hsi, h]
        | some s =>
          by_cases h2 : keptRows p s st.existing f.table = []
          · simp [processFile, h1, hpi, hsi, h2]
          · simp [processFile, h1, hpi, hsi, h2, h]

theorem foldl_inert (l : List XFile) (st : ExcelRunState)
    (h : ∀ f ∈ l, fileInert st.existing f) :
    (l.foldl processFile st).existing = st.existing ∧
    (l.foldl processFile st).sheetSources = st.sheetSources ∧
    (l.foldl processFile st).log = st.log := by
  induction l generalizing st with
  | nil => exact ⟨rfl, rfl, rfl⟩
  | cons f t ih =>
    have h0 := processFile_inert st f (h f (List.mem_cons_self f t))
    have ih2 := ih (processFile st f) (fun g hg => by
      rw [h0.1]
      exact h g (List.mem_cons_of_mem f hg))
    simp only [List.foldl_cons]
    exact ⟨ih2.1.trans h0.1, ih2.2.1.trans h0.2.1, ih2.2.2.trans h0.2.2⟩

theorem run1_stable (l : List XFile) (st : ExcelRunState) :
    ∀ f ∈ l, excelStable (l.foldl processFile st).existing
      (l.foldl processFile st).sheetSources f := by
  induction l generalizing st with
  | nil => intro f hf; simp at hf
  | cons g t ih =>
    intro f hf
    simp only [List.foldl_cons]
    rcases List.mem_cons.mp hf with hf | hf
    · subst hf
      by_cases h1 : f.table = []
      · exact Or.inr (Or.inl h1)
      · cases hp : f.poIdx with
        | none =>
          cases ha : f.appendOk
          · exact Or.inr (Or.inr (Or.inr ha))
          · have hn : f.name ∈ (processFile st f).sheetSources := by
              simp [processFile, h1, hp, ha]
            exact Or.inl (foldl_sources_mono t _ hn)
        | some p =>
          cases hs : f.skuIdx with
          | none =>
            cases ha : f.appendOk
            · exact Or.inr (Or.inr (Or.inr ha))
            · have hn : f.name ∈ (processFile st f).sheetSources := by
                simp [processFile, h1, hp, hs, ha]
              exact Or.inl (foldl_sources_mono t _ hn)
          | some s =>
            by_cases h2 : keptRows p s st.existing f.table = []
            · have hall : ∀ r ∈ f.table, rowKeyAt p s r ∈ st.existing := by
                rw [keptRows, List.filter_eq_nil_iff] at h2
                intro r hr
                have := h2 r hr
                simpa using this
              refine Or.inr (Or.inr (Or.inl ⟨p, s, hp, hs, ?_⟩))
              intro r hr
              exact foldl_existing_mono t _
                (processFile_existing_mono st f (hall r hr))
            · cases ha : f.appendOk
              · exact Or.inr (Or.inr (Or.inr ha))
              · have hn : f.name ∈ (processFile st f).sheetSources := by
                  simp [processFile, h1, hp, hs, h2, ha]
                exact Or.inl (foldl_sources_mono t _ hn)
    · exact ih (processFile st g) f hf

theorem mem_excelToProcess {sheet : SheetState} {files : List XFile}
    {f : XFile} :
    f ∈ excelToProcess sheet files ↔ f ∈ files ∧ f.name ∉ sheet.sources := by
  simp [excelToProcess]

/-! Idempotence of the attachment reconciler. -/

theorem foldl_remote_mono (atts : List Attachment) (st : GmailState)
    {f : Option String} {n : String} (h : n ∈ st.remote f) :
    n ∈ (atts.foldl processAttachment st).remote f := by
  induction atts generalizing st with
  | nil => exact h
  | cons a t ih => exact ih _ (processAttachment_remote_mono st a h)

theorem createFolder_saved (st : GmailState) (nm : String) :
    (createFolder st nm).saved = st.saved := by
  unfold createFolder; split <;> rfl

theorem folderListing_saved (st : GmailState) (n : String) :
    ((folderListing st n).2).saved = st.saved := by
  unfold folderListing; split <;> rfl

theorem folderListing_fst_sub (st : GmailState) (n : String)
    (hsub : cacheSub st) :
    ∀ x ∈ (folderListing st n).1, x ∈ st.remote (some n) := by
  intro x hx
  rcases hc : st.cache (some n) with _ | l
  · simp only [folderListing, hc] at hx
    exact hx
  · simp only [folderListing, hc] at hx
    exact hsub (some n) l hc x hx

theorem step_self_stable (st : GmailState) (a : Attachment)
    (hsub : cacheSub st) :
    attStable (processAttachment st a).remote a := by
  intro he
  simp only [processAttachment, he, if_true]
  split
  · left
    have hsub1 := cacheSub_createFolder st (attachmentFolder a) hsub
    have hx := folderListing_fst_sub (createFolder st (attachmentFolder a))
      (attachmentFolder a) hsub1 _ (by assumption)
    have hrem : ((folderListing (createFolder st (attachmentFolder a))
        (attachmentFolder a)).2).remote = (createFolder st (attachmentFolder a)).remote :=
      folderListing_snd_remote _ _
    show attachmentKey a ∈ ((folderListing (createFolder st (attachmentFolder a))
        (attachmentFolder a)).2).remote (some (attachmentFolder a))
    rw [hrem]
    exact hx
  · split
    · left
      show attachmentKey a ∈ (uploadFile
        ((folderListing (createFolder st (attachmentFolder a))
          (attachmentFolder a)).2) (attachmentFolder a) (attachmentKey a)).remote
        (some (attachmentFolder a))
      unfold uploadFile
      simp only [if_pos rfl]
      exact List.mem_cons_self _ _
    · right
      rename_i hfk
      simpa using hfk

theorem run_stable_gmail (atts : List Attachment) (st : GmailState)
    (hsub : cacheSub st) :
    ∀ a ∈ atts, attStable (atts.foldl processAttachment st).remote a := by
  induction atts generalizing st with
  | nil => intro a ha; simp at ha
  | cons b t ih =>
    intro a ha
    simp only [List.foldl_cons]
    rcases List.mem_cons.mp ha with ha | ha
    · subst ha
      intro he
      rcases step_self_stable st a hsub he with h | h
      · exact Or.inl (foldl_remote_mono t _ h)
      · exact Or.inr h
    · exact ih (processAttachment st b) (cacheSub_processAttachment st b hsub) a ha

theorem remoteSup_processAttachment {base : Option String → List String}
    (st : GmailState) (a : Attachment) (h : remoteSup base st) :
    remoteSup base (processAttachment st a) :=
  fun f n hn => processAttachment_remote_mono st a (h f n hn)

theorem cacheSup_createFolder {base : Option String → List String}
    (st : GmailState) (nm : String) (h : cacheSup base st) :
    cacheSup base (createFolder st nm) := by
  unfold createFolder
  split
  · exact h
  · intro f l hfl n hn
    by_cases hf : f = none
    · subst hf; simp at hfl
    · simp only [if_neg hf] at hfl
      exact h f l hfl n hn

theorem cacheSup_folderListing {base : Option String → List String}
    (st : GmailState) (n0 : String) (hrs : remoteSup base st)
    (h : cacheSup base st) : cacheSup base (folderListing st n0).2 := by
  rcases hc : st.cache (some n0) with _ | l0
  · intro f l hfl n hn
    simp only [folderListing, hc] at hfl
    by_cases hf : f = some n0
    · subst hf
      simp only [if_pos rfl] at hfl
      have hl : st.remote (some n0) = l := by injection hfl
      rw [← hl]
      exact hrs _ n hn
    · simp only [if_neg hf] at hfl
      exact h f l hfl n hn
  · simpa only [folderListing, hc] using h

theorem cacheSup_uploadFile {base : Option String → List String}
    (st : GmailState) (nm fname : String) (h : cacheSup base st) :
    cacheSup base (uploadFile st nm fname) := by
  intro f l hfl n hn
  unfold uploadFile at hfl
  by_cases hf : f = some nm
  · subst hf
    simp only [if_pos rfl] at hfl
    rcases hmap : st.cache (some nm) with _ | l0
    · rw [hmap] at hfl; simp at hfl
    · rw [hmap] at hfl
      simp only [Option.map] at hfl
      have hl : fname :: l0 = l := by injection hfl
      rw [← hl]
      exact List.mem_cons_of_mem _ (h (some nm) l0 hmap n hn)
  · simp only [if_neg hf] at hfl
    exact h f l hfl n hn

theorem run2_step_gmail {base : Option String → List String}
    (st : GmailState) (a : Attachment) (hrs : remoteSup base st)
    (hcs : cacheSup base st) (hst : attStable base a) :
    (processAttachment st a).saved = st.saved ∧
    remoteSup base (processAttachment st a) ∧
    cacheSup base (processAttachment st a) := by
  refine ⟨?_, remoteSup_processAttachment st a hrs, ?_⟩
  · by_cases he : isExcelName a.filename
    · simp only [processAttachment, he, if_true]
      have hrs1 : remoteSup base (createFolder st (attachmentFolder a)) :=
        fun f n hn => createFolder_remote_mono st _ (hrs f n hn)
      have hcs1 : cacheSup base (createFolder st (attachmentFolder a)) :=
        cacheSup_createFolder st _ hcs
      split
      · show ((folderListing (createFolder st (attachmentFolder a))
            (attachmentFolder a)).2).saved + 0 + 1 - 1 = st.saved + 0
        rw [folderListing_saved, createFolder_saved]
        omega
      · rcases hst he with hkey | hfk
        · exfalso
          have hmem : attachmentKey a ∈ (folderListing
              (createFolder st (attachmentFolder a)) (attachmentFolder a)).1 := by
            rcases hc : (createFolder st (attachmentFolder a)).cache
                (some (attachmentFolder a)) with _ | l
            · simp only [folderListing, hc]
              exact hrs1 _ _ hkey
            · simp only [folderListing, hc]
              exact hcs1 _ l hc _ hkey
          exact absurd hmem (by assumption)
        · rw [hfk]
          simp only [Bool.false_eq_true, if_false]
          show ((folderListing (createFolder st (attachmentFolder a))
              (attachmentFolder a)).2).saved + 0 + 1 - 1 = st.saved + 0
          rw [folderListing_saved, createFolder_saved]
          omega
    · simp [processAttachment, he]
  · by_cases he : isExcelName a.filename
    · simp only [processAttachment, he, if_true]
      have hrs1 : remoteSup base (createFolder st (attachmentFolder a)) :=
        fun f n hn => createFolder_remote_mono st _ (hrs f n hn)
      have hcs1 : cacheSup base (createFolder st (attachmentFolder a)) :=
        cacheSup_createFolder st _ hcs
      have hcs2 : cacheSup base (folderListing
          (createFolder st (attachmentFolder a)) (attachmentFolder a)).2 :=
        cacheSup_folderListing _ _ hrs1 hcs1
      split
      · exact hcs2
      · split
        · exact cacheSup_uploadFile _ _ _ hcs2
        · exact hcs2
    · simpa [processAttachment, he] using hcs

theorem run2_fold_gmail {base : Option String → List String}
    (atts : List Attachment) (st : GmailState) (hrs : remoteSup base st)
    (hcs : cacheSup base st) (hst : ∀ a ∈ atts, attStable base a) :
    (atts.foldl processAttachment st).saved = st.saved := by
  induction atts generalizing st with
  | nil => rfl
  | cons a t ih =>
    have hs := run2_step_gmail st a hrs hcs (hst a (List.mem_cons_self a t))
    simp only [List.foldl_cons]
    rw [ih (processAttachment st a) hs.2.1 hs.2.2
      (fun b hb => hst b (List.mem_cons_of_mem a hb))]
    exact hs.1

/-- **C8.** Reconciler idempotence across two runs: run the Excel
reconciler a second time against the sheet state produced by the first run
with the same candidate files and it appends nothing (empty append log);
run the attachment reconciler a second time against the Drive state
produced by the first run with the same attachments and it uploads nothing
(zero saved).  The cleanup pass is outside the reconciler and is treated
separately. -/
theorem C8_reconciler_idempotent :
    (∀ (sheet : SheetState) (files : List XFile),
      (runExcel (sheetAfter (runExcel sheet files)) files).log = []) ∧
    (∀ (snap : DriveSnapshot) (atts : List Attachment),
      (runGmail (driveAfter (runGmail snap atts)) atts).saved = 0) := by
  constructor
  · intro sheet files
    have hstable : ∀ f ∈ excelToProcess sheet files,
        excelStable (runExcel sheet files).existing
          (runExcel sheet files).sheetSources f :=
      run1_stable _ (excelInit sheet files)
    have hsrc0 : ∀ n, n ∈ sheet.sources →
        n ∈ (runExcel sheet files).sheetSources := by
      intro n hn
      exact foldl_sources_mono _ (excelInit sheet files) hn
    have hinert : ∀ f ∈ excelToProcess (sheetAfter (runExcel sheet files)) files,
        fileInert (excelInit (sheetAfter (runExcel sheet files)) files).existing f := by
      intro f hf
      rcases mem_excelToProcess.mp hf with ⟨hff, hnm⟩
      have hnm2 : f.name ∉ (runExcel sheet files).sheetSources := hnm
      by_cases hf1 : f.name ∈ sheet.sources
      · exact absurd (hsrc0 f.name hf1) hnm2
      · have hf2 : f ∈ excelToProcess sheet files :=
          mem_excelToProcess.mpr ⟨hff, hf1⟩
        rcases hstable f hf2 with h | h
        · exact absurd h hnm2
        · exact h
    exact (foldl_inert _ _ hinert).2.2
  · intro snap atts
    have hsub : cacheSub (gmailInit snap) := by
      intro f l hfl
      cases hfl
    have hstable : ∀ a ∈ atts,
        attStable (runGmail snap atts).remote a :=
      run_stable_gmail atts _ hsub
    have hz := run2_fold_gmail atts
      (gmailInit (driveAfter (runGmail snap atts)))
      (fun f n hn => hn) (fun f l hfl => by cases hfl) hstable
    exact hz

theorem dedupSeen_sublist {α β : Type} [DecidableEq β] (key : α → β)
    (seen : List β) (xs : List α) : (dedupSeen key seen xs).Sublist xs := by
  induction xs generalizing seen with
  | nil => exact List.Sublist.refl []
  | cons x t ih =>
    simp only [dedupSeen]
    split
    · exact (ih seen).trans (List.sublist_cons_self x t)
    · exact List.Sublist.cons₂ x (ih (key x :: seen))

theorem dedupSeen_unseen {α β : Type} [DecidableEq β] (key : α → β)
    (seen : List β) (xs : List α) :
    ∀ y ∈ dedupSeen key seen xs, key y ∉ seen := by
  induction xs generalizing seen with
  | nil => intro y hy; simp [dedupSeen] at hy
  | cons x t ih =>
    intro y hy
    simp only [dedupSeen] at hy
    split at hy
    · exact ih seen y hy
    · rcases List.mem_cons.mp hy with hy | hy
      · subst hy
        assumption
      · have := ih (key x :: seen) y hy
        intro hc
        exact this (List.mem_cons_of_mem _ hc)

theorem dedupSeen_pairwise {α β : Type} [DecidableEq β] (key : α → β)
    (seen : List β) (xs : List α) :
    (dedupSeen key seen xs).Pairwise (fun a b => key a ≠ key b) := by
  induction xs generalizing seen with
  | nil => exact List.Pairwise.nil
  | cons x t ih =>
    simp only [dedupSeen]
    split
    · exact ih seen
    · refine List.Pairwise.cons ?_ (ih (key x :: seen))
      intro y hy heq
      exact dedupSeen_unseen key _ t y hy (heq ▸ List.mem_cons_self _ _)

theorem dedupSeen_covers {α β : Type} [DecidableEq β] (key : α → β)
    (seen : List β) (xs : List α) :
    ∀ x ∈ xs, key x ∉ seen → ∃ y ∈ dedupSeen key seen xs, key y = key x := by
  induction xs generalizing seen with
  | nil => intro x hx; simp at hx
  | cons z t ih =>
    intro x hx hns
    simp only [dedupSeen]
    rcases List.mem_cons.mp hx with hx | hx
    · subst hx
      split
      · exact absurd (by assumption) hns
      · exact ⟨x, List.mem_cons_self _ _, rfl⟩
    · split
      · exact ih seen x hx hns
      · by_cases hkz : key x = key z
        · exact ⟨z, List.mem_cons_self _ _, hkz.symm⟩
        · rcases ih (key z :: seen) x hx (by
            intro hc
            rcases List.mem_cons.mp hc with hc | hc
            · exact hkz hc
            · exact hns hc) with ⟨y, hy, hky⟩
          exact ⟨y, List.mem_cons_of_mem _ hy, hky⟩

theorem dedupSeen_first_occ {α β : Type} [DecidableEq β] (key : α → β)
    (seen : List β) (xs : List α) :
    ∀ i x, xs.get? i = some x →
    (∀ j y, j < i → xs.get? j = some y → key y ≠ key x) →
    key x ∉ seen → x ∈ dedupSeen key seen xs := by
  induction xs generalizing seen with
  | nil => intro i x hx; simp at hx
  | cons z t ih =>
    intro i x hx hbefore hns
    cases i with
    | zero =>
      have hxz : z = x := by simpa using hx
      subst hxz
      simp only [dedupSeen]
      split
      · exact absurd (by assumption) hns
      · exact List.mem_cons_self _ _
    | succ i2 =>
      have hx2 : t.get? i2 = some x := by simpa using hx
      have hz : key z ≠ key x :=
        hbefore 0 z (Nat.succ_pos i2) (by simp)
      have hbefore2 : ∀ j y, j < i2 → t.get? j = some y → key y ≠ key x := by
        intro j y hj hy
        exact hbefore (j + 1) y (Nat.succ_lt_succ hj) (by simpa using hy)
      simp only [dedupSeen]
      split
      · exact ih seen i2 x hx2 hbefore2 hns
      · refine List.mem_cons_of_mem _ (ih (key z :: seen) i2 x hx2 hbefore2 ?_)
        intro hc
        rcases List.mem_cons.mp hc with hc | hc
        · exact hz hc.symm
        · exact hns hc

theorem dedupSeen_eq_self {α β : Type} [DecidableEq β] (key : α → β)
    (seen : List β) (xs : List α)
    (hpw : xs.Pairwise (fun a b => key a ≠ key b))
    (hns : ∀ x ∈ xs, key x ∉ seen) : dedupSeen key seen xs = xs := by
  induction xs generalizing seen with
  | nil => rfl
  | cons x t ih =>
    simp only [dedupSeen]
    rcases List.pairwise_cons.mp hpw with ⟨hx, hpw2⟩
    split
    · exact absurd (by assumption) (hns x (List.mem_cons_self _ _))
    · congr 1
      refine ih (key x :: seen) hpw2 ?_
      intro y hy hc
      rcases List.mem_cons.mp hc with hc | hc
      · exact hx y hy hc.symm
      · exact hns y (List.mem_cons_of_mem _ hy) hc

theorem processFile_log_sub (st : ExcelRunState) (f : XFile) :
    ∀ e ∈ (processFile st f).log,
      e ∈ st.log ∨ (e.1 = f ∧ ∀ r ∈ e.2, r ∈ f.table) := by
  intro e he
  by_cases h1 : f.table = []
  · rw [show processFile st f = { st with failed := st.failed + 1 } by
      simp [processFile, h1]] at he
    exact Or.inl he
  · cases hp : f.poIdx with
    | none =>
      cases ha : f.appendOk
      · rw [show processFile st f = { st with failed := st.failed + 1 } by
          simp [processFile, h1, hp, ha]] at he
        exact Or.inl he
      · rw [show processFile st f =
            { st with
              sheetSources := st.sheetSources ++ [f.name]
              processed := st.processed + 1
              log := st.log ++ [(f, f.table)] } by
          simp [processFile, h1, hp, ha]] at he
        rcases List.mem_append.mp he with h2 | h2
        · exact Or.inl h2
        · have : e = (f, f.table) := by simpa using h2
          subst this
          exact Or.inr ⟨rfl, fun r hr => hr⟩
    | some p =>
      cases hs : f.skuIdx with
      | none =>
        cases ha : f.appendOk
        · rw [show processFile st f = { st with failed := st.failed + 1 } by
            simp [processFile, h1, hp, hs, ha]] at he
          exact Or.inl he
        · rw [show processFile st f =
              { st with
                sheetSources := st.sheetSources ++ [f.name]
                processed := st.processed + 1
                log := st.log ++ [(f, f.table)] } by
            simp [processFile, h1, hp, hs, ha]] at he
          rcases List.mem_append.mp he with h2 | h2
          · exact Or.inl h2
          · have : e = (f, f.table) := by simpa using h2
            subst this
            exact Or.inr ⟨rfl, fun r hr => hr⟩
      | some s =>
        by_cases h2 : keptRows p s st.existing f.table = []
        · rw [show processFile st f = { st with skipped := st.skipped + 1 } by
            simp [processFile, h1, hp, hs, h2]] at he
          exact Or.inl he
        · cases ha : f.appendOk
          · rw [show processFile st f = { st with failed := st.failed + 1 } by
              simp [processFile, h1, hp, hs, h2, ha]] at he
            exact Or.inl he
          · rw [show processFile st f =
                { st with
                  existing := st.existing ++
                    ((keptRows p s st.existing f.table).filter
                      (fun r => rowNonblankAt p s r)).map (rowKeyAt p s)
                  sheetSources := st.sheetSources ++ [f.name]
                  processed := st.processed + 1
                  log := st.log ++ [(f, keptRows p s st.existing f.table)] } by
              simp [processFile, h1, hp, hs, h2, ha]] at he
            rcases List.mem_append.mp he with h3 | h3
            · exact Or.inl h3
            · have : e = (f, keptRows p s st.existing f.table) := by
                simpa using h3
              subst this
              refine Or.inr ⟨rfl, ?_⟩
              intro r hr
              exact List.mem_of_mem_filter hr

/-- **C10.** After `_clean_dataframe` on a table with at least five
columns, no surviving row is blank in the fifth column (blank, NaN or the
string `nan`), the surviving rows are pairwise distinct as full rows, and
any batch the loop body appends from a file whose parsed table is such a
cleaned table contains no fifth-column-blank row: such rows never reach the
dataset. -/
theorem C10_clean_dataframe (ncols : Nat) (rows : List (List String))
    (h5 : 5 ≤ ncols) :
    (∀ r ∈ clean_dataframe ncols rows, blank5 r = false) ∧
    (clean_dataframe ncols rows).Pairwise (fun a b => a ≠ b) ∧
    (∀ (st : ExcelRunState) (f : XFile),
      f.table = clean_dataframe ncols rows →
      ∀ e ∈ (processFile st f).log,
        e ∈ st.log ∨ ∀ r ∈ e.2, blank5 r = false) := by
  have hmem : ∀ r ∈ clean_dataframe ncols rows, blank5 r = false := by
    intro r hr
    have hr2 : r ∈ (rows.map (fun r => r.map stripApos)).filter
        (fun r => !(blank5 r)) := by
      have := (dedupSeen_sublist id [] _).mem hr
      simpa [clean_dataframe, h5] using this
    have := List.mem_filter.mp hr2
    simpa using this.2
  refine ⟨hmem, ?_, ?_⟩
  · have := dedupSeen_pairwise (id : List String → List String) []
      (if 5 ≤ ncols then (rows.map (fun r => r.map stripApos)).filter
        (fun r => !(blank5 r)) else rows.map (fun r => r.map stripApos))
    simpa [clean_dataframe] using this
  · intro st f hf e he
    rcases processFile_log_sub st f e he with h | ⟨_, hsub⟩
    · exact Or.inl h
    · refine Or.inr ?_
      intro r hr
      exact hmem r (hf ▸ hsub r hr)

/-- **C10, witness.** The theorem applied at a concrete five-column table:
its surviving first row is not blank in the fifth column. -/
theorem C10_witness : blank5 ["a", "b", "c", "d", "e"] = false :=
  (C10_clean_dataframe 5 c10Rows (by decide)).1 ["a", "b", "c", "d", "e"]
    (by decide)

theorem ne_char_of_toNat {c d : Char} (h : c.toNat ≠ d.toNat) : c ≠ d :=
  fun e => h (congrArg Char.toNat e)

theorem dropWhile_append_last {p : Char → Bool} {c : Char}
    (hc : p c = false) (l : List Char) :
    ∃ t, List.dropWhile p (l ++ [c]) = t ++ [c] := by
  induction l with
  | nil => exact ⟨[], by simp [List.dropWhile, hc]⟩
  | cons a m ih =>
    by_cases ha : p a
    · rcases ih with ⟨t, ht⟩
      exact ⟨t, by simp [List.dropWhile, ha, ht]⟩
    · exact ⟨a :: m, by simp [List.dropWhile, ha]⟩

theorem stripChars_cons_of_noWS {c : Char} {cs : List Char}
    (hws : isPyWS c = false) : ∃ t, stripChars (c :: cs) = c :: t := by
  unfold stripChars stripRight
  rw [List.reverse_cons]
  rcases dropWhile_append_last hws cs.reverse with ⟨t, ht⟩
  rw [ht, List.reverse_append]
  refine ⟨t.reverse, ?_⟩
  simp [List.dropWhile, hws]

theorem safeChar_facts {c : Char} (h : safeChar c = true) :
    isPyWS c = false ∧ isDigitChar c = false ∧ c ≠ '+' ∧ c ≠ '-' ∧
    c ≠ '.' ∧ lowChar c ≠ 'i' ∧ lowChar c ≠ 'n' := by
  have hb : ((65 ≤ c.toNat ∧ c.toNat ≤ 90) ∨ (97 ≤ c.toNat ∧ c.toNat ≤ 122)) ∧
      ¬c.toNat = 73 ∧ ¬c.toNat = 105 ∧ ¬c.toNat = 78 ∧ ¬c.toNat = 110 := by
    simpa [safeChar, and_assoc] using h
  refine ⟨?_, ?_, ?_, ?_, ?_, ?_, ?_⟩
  · simp only [isPyWS]
    have h1 : c ≠ ' ' := ne_char_of_toNat (by show c.toNat ≠ 32; omega)
    have h2 : c ≠ Char.ofNat 9 := ne_char_of_toNat (by show c.toNat ≠ 9; omega)
    have h3 : c ≠ Char.ofNat 10 := ne_char_of_toNat (by show c.toNat ≠ 10; omega)
    have h4 : c ≠ Char.ofNat 13 := ne_char_of_toNat (by show c.toNat ≠ 13; omega)
    have h5 : c ≠ Char.ofNat 11 := ne_char_of_toNat (by show c.toNat ≠ 11; omega)
    have h6 : c ≠ Char.ofNat 12 := ne_char_of_toNat (by show c.toNat ≠ 12; omega)
    simp [h1, h2, h3, h4, h5, h6]
  · simp only [isDigitChar]
    have hno : ¬(48 ≤ c.toNat ∧ c.toNat ≤ 57) := by omega
    simpa using hno
  · exact ne_char_of_toNat (by show c.toNat ≠ 43; omega)
  · exact ne_char_of_toNat (by show c.toNat ≠ 45; omega)
  · exact ne_char_of_toNat (by show c.toNat ≠ 46; omega)
  · unfold lowChar
    by_cases hu : 65 ≤ c.toNat && c.toNat ≤ 90
    · rw [if_pos hu]
      have hv : (Char.ofNat (c.toNat + 32)).toNat = c.toNat + 32 := by
        unfold Char.ofNat
        rw [dif_pos (Or.inl (by omega))]
        rfl
      refine ne_char_of_toNat ?_
      rw [hv]
      show c.toNat + 32 ≠ 105
      omega
    · rw [if_neg hu]
      simp only [Bool.and_eq_true, decide_eq_true_eq, not_and_or] at hu
      have hu2 : ¬(65 ≤ c.toNat) ∨ ¬(c.toNat ≤ 90) := by
        rcases hu with hu | hu
        · exact Or.inl (by simpa using hu)
        · exact Or.inr (by simpa using hu)
      exact ne_char_of_toNat (by show c.toNat ≠ 105; omega)
  · unfold lowChar
    by_cases hu : 65 ≤ c.toNat && c.toNat ≤ 90
    · rw [if_pos hu]
      have hv : (Char.ofNat (c.toNat + 32)).toNat = c.toNat + 32 := by
        unfold Char.ofNat
        rw [dif_pos (Or.inl (by omega))]
        rfl
      refine ne_char_of_toNat ?_
      rw [hv]
      show c.toNat + 32 ≠ 110
      omega
    · rw [if_neg hu]
      simp only [Bool.and_eq_true, decide_eq_true_eq, not_and_or] at hu
      have hu2 : ¬(65 ≤ c.toNat) ∨ ¬(c.toNat ≤ 90) := by
        rcases hu with hu | hu
        · exact Or.inl (by simpa using hu)
        · exact Or.inr (by simpa using hu)
      exact ne_char_of_toNat (by show c.toNat ≠ 110; omega)

theorem roundtripCell_safe {s : String} (h : safeCell s = true) :
    roundtripCell s = s := by
  unfold roundtripCell process_value
  cases hl : s.toList with
  | nil =>
    have hse : s = "" := by
      cases s with
      | mk data =>
        simp only [String.toList] at hl
        rw [hl]
    rw [hse]
    simp
    rfl
  | cons c cs =>
    have hsne : ¬(s = "") := by
      intro he
      rw [he] at hl
      simp at hl
    rw [if_neg hsne]
    have hsafe : safeChar c = true := by
      rw [safeCell, hl] at h
      exact h
    obtain ⟨hws, hdg, hplus, hminus, hdot, hlowi, hlown⟩ := safeChar_facts hsafe
    obtain ⟨t, hstrip⟩ := @stripChars_cons_of_noWS c cs hws
    have hint : pyIntParse s = none := by
      have had : allDigitsU (c :: t) = false := by
        simp [allDigitsU, hdg]
      unfold pyIntParse
      rw [hl, hstrip]
      simp [hplus, hminus, had]
    have hds : dropSign (c :: t) = c :: t := by
      simp [dropSign, hplus, hminus]
    have hfloat : pyFloatOk s = false := by
      unfold pyFloatOk
      rw [hl, hstrip, hds]
      have h1 : lowerEqStr (c :: t) "inf" = false := by
        simp only [lowerEqStr, decide_eq_false_iff_not]
        intro hcon
        have : lowChar c = 'i' := by
          have := congrArg (fun l => l.headD ' ') hcon
          simpa using this
        exact hlowi this
      have h2 : lowerEqStr (c :: t) "infinity" = false := by
        simp only [lowerEqStr, decide_eq_false_iff_not]
        intro hcon
        have : lowChar c = 'i' := by
          have := congrArg (fun l => l.headD ' ') hcon
          simpa using this
        exact hlowi this
      have h3 : lowerEqStr (c :: t) "nan" = false := by
        simp only [lowerEqStr, decide_eq_false_iff_not]
        intro hcon
        have : lowChar c = 'n' := by
          have := congrArg (fun l => l.headD ' ') hcon
          simpa using this
        exact hlown this
      have h4 : floatNum (c :: t) = false := by
        have hda : digitsAfter (c :: t) = none := by
          simp [digitsAfter, hdg]
        simp [floatNum, hda, hdot]
      simp [h1, h2, h3, h4]
    split
    · split
      · rename_i hfo
        rw [hfloat] at hfo
        cases hfo
      · rfl
    · rw [hint]
      rfl

/-- **C6.** The Cleanup Pass deduplicates the data rows by the (PO, SKU)
composite key keeping the first occurrence in existing row order: the kept
rows are a sublist of the data rows, pairwise key-distinct, every key stays
represented, and every first occurrence of a key is kept; the returned
count is the number of rows removed by the dedup step plus the number
removed by the blank-row step; on the scenario dataset exactly one row is
removed and the first `("PO1","SKU1")` row survives. -/
theorem C6_cleanup_dedup :
    (∀ {α β : Type} [DecidableEq β] (key : α → β) (xs : List α),
      (dedupKeepFirst key xs).Sublist xs ∧
      (dedupKeepFirst key xs).Pairwise (fun a b => key a ≠ key b) ∧
      (∀ x ∈ xs, ∃ y ∈ dedupKeepFirst key xs, key y = key x) ∧
      (∀ i x, xs.get? i = some x →
        (∀ j y, j < i → xs.get? j = some y → key y ≠ key x) →
        x ∈ dedupKeepFirst key xs)) ∧
    (∀ (values : List (List String)), values ≠ [] →
      (cleanupSheet values).2 =
        ((cleanupRows0 values).length - (cleanupRows1 values).length) +
          ((cleanupRows1 values).length - (cleanupRows2 values).length)) ∧
    cleanupSheet c6Scenario =
      ([["PO No", "Sku Code"], ["PO1", "SKU1"], ["PO2", "SKU2"]], 1) ∧
    ["PO1", "SKU1"] ∈ (cleanupSheet c6Scenario).1 := by
  refine ⟨?_, ?_, by decide, by decide⟩
  · intro α β inst key xs
    refine ⟨dedupSeen_sublist key [] xs, dedupSeen_pairwise key [] xs, ?_, ?_⟩
    · intro x hx
      exact dedupSeen_covers key [] xs x hx (by simp)
    · intro i x hx hbefore
      exact dedupSeen_first_occ key [] xs i x hx hbefore (by simp)
  · intro values hv
    cases values with
    | nil => exact absurd rfl hv
    | cons v0 vrest => rfl

/-- **C6, witness.** The theorem applied at concrete inputs: in the
scenario data rows, the first occurrence of the duplicated key is kept. -/
theorem C6_witness :
    ["PO1", "SKU1"] ∈
      dedupKeepFirst (cleanupKey 1 0)
        [["PO1", "SKU1"], ["PO2", "SKU2"], ["PO1", "SKU1"]] ∧
    (cleanupSheet c6Scenario).2 =
      ((cleanupRows0 c6Scenario).length - (cleanupRows1 c6Scenario).length) +
        ((cleanupRows1 c6Scenario).length - (cleanupRows2 c6Scenario).length) :=
  ⟨(C6_cleanup_dedup.1 (cleanupKey 1 0)
      [["PO1", "SKU1"], ["PO2", "SKU2"], ["PO1", "SKU1"]]).2.2.2 0
      ["PO1", "SKU1"] rfl
      (fun j y hj _ => absurd hj (Nat.not_lt_zero j)),
   C6_cleanup_dedup.2.1 c6Scenario (by decide)⟩

/-- **C7, counterexample.** Applying the Cleanup Pass to the output of the
Cleanup Pass on `c7Input` removes one more row, not zero: the first pass
keeps both rows (keys `("S","07")` and `("S","7")` differ) but writes both
PO cells as the number 7, and the second pass reads two rows with equal
keys and drops one. -/
theorem C7_counterexample :
    cleanupSheet c7Input =
      ([["PO No", "Sku Code"], ["7", "S"], ["7", "S"]], 0) ∧
    (cleanupSheet (cleanupSheet c7Input).1).2 = 1 ∧
    ¬((cleanupSheet (cleanupSheet c7Input).1).2 = 0) := by
  refine ⟨by decide, by decide, by decide⟩

theorem foldl_max_le {k : Nat} (l : List (List String)) :
    ∀ a, a ≤ k → (∀ r ∈ l, r.length ≤ k) →
    l.foldl (fun a r => max a r.length) a ≤ k := by
  induction l with
  | nil => intro a ha _; exact ha
  | cons r t ih =>
    intro a ha hall
    simp only [List.foldl_cons]
    exact ih (max a r.length)
      (max_le ha (hall r (List.mem_cons_self r t)))
      (fun q hq => hall q (List.mem_cons_of_mem r hq))

theorem le_foldl_max (l : List (List String)) :
    ∀ a, a ≤ l.foldl (fun a r => max a r.length) a := by
  induction l with
  | nil => intro a; exact Nat.le_refl a
  | cons r t ih =>
    intro a
    simp only [List.foldl_cons]
    exact le_trans (le_max_left a r.length) (ih (max a r.length))

theorem mem_le_foldl_max (l : List (List String)) :
    ∀ a r, r ∈ l → r.length ≤ l.foldl (fun a r => max a r.length) a := by
  induction l with
  | nil => intro a r hr; simp at hr
  | cons q t ih =>
    intro a r hr
    simp only [List.foldl_cons]
    rcases List.mem_cons.mp hr with hr | hr
    · subst hr
      exact le_trans (le_max_right a r.length) (le_foldl_max t _)
    · exact ih (max a q.length) r hr

theorem mem_le_maxRowLen {values : List (List String)} {r : List String}
    (h : r ∈ values) : r.length ≤ maxRowLen values :=
  mem_le_foldl_max values 0 r h

theorem maxRowLen_const {k : Nat} {h0 : List String} {l : List (List String)}
    (hh : h0.length = k) (hl : ∀ r ∈ l, r.length = k) :
    maxRowLen (h0 :: l) = k := by
  apply Nat.le_antisymm
  · apply foldl_max_le (h0 :: l) 0 (Nat.zero_le k)
    intro r hr
    rcases List.mem_cons.mp hr with hr | hr
    · exact hr ▸ hh.le
    · exact (hl r hr).le
  · exact hh ▸ mem_le_maxRowLen (List.mem_cons_self h0 l)

theorem length_padRow {m : Nat} {r : List String} (h : r.length ≤ m) :
    (padRow m r).length = m := by
  simp [padRow]
  omega

theorem padRow_eq_self {m : Nat} {r : List String} (h : r.length = m) :
    padRow m r = r := by
  simp [padRow, h]

theorem mem_padRow {m : Nat} {r : List String} {c : String}
    (h : c ∈ padRow m r) : c ∈ r ∨ c = "" := by
  rcases List.mem_append.mp h with h | h
  · exact Or.inl h
  · exact Or.inr (List.eq_of_mem_replicate h)

theorem column_label_ne_empty (i : Nat) : "Column_" ++ toString (i + 1) ≠ "" := by
  intro hc
  have hlen := congrArg String.length hc
  rw [String.length_append] at hlen
  have h7 : "Column_".length = 7 := rfl
  have h0 : "".length = 0 := rfl
  rw [h7, h0] at hlen
  omega

theorem defaultHeadersFrom_ne_empty (l : List String) :
    ∀ i, ∀ h ∈ defaultHeadersFrom i l, h ≠ "" := by
  induction l with
  | nil => intro i h hh; simp [defaultHeadersFrom] at hh
  | cons x t ih =>
    intro i h hh
    simp only [defaultHeadersFrom] at hh
    rcases List.mem_cons.mp hh with hh | hh
    · subst hh
      by_cases hx : x = ""
      · simpa [hx] using column_label_ne_empty i
      · simp only [hx, if_false]
        exact hx
    · exact ih (i + 1) h hh

theorem defaultHeadersFrom_eq_self (l : List String)
    (hne : ∀ h ∈ l, h ≠ "") : ∀ i, defaultHeadersFrom i l = l := by
  induction l with
  | nil => intro i; rfl
  | cons x t ih =>
    intro i
    simp only [defaultHeadersFrom]
    rw [if_neg (hne x (List.mem_cons_self x t))]
    rw [ih (fun h hh => hne h (List.mem_cons_of_mem x hh)) (i + 1)]

theorem length_defaultHeadersFrom (l : List String) :
    ∀ i, (defaultHeadersFrom i l).length = l.length := by
  induction l with
  | nil => intro i; rfl
  | cons x t ih =>
    intro i
    simp only [defaultHeadersFrom, List.length_cons, ih (i + 1)]

theorem findCol_sound {name : String} {l : List String} :
    ∀ {i}, findCol name l = some i → l.get? i = some name := by
  induction l with
  | nil => intro i h; simp [findCol] at h
  | cons x t ih =>
    intro i h
    simp only [findCol] at h
    by_cases hx : x = name
    · rw [if_pos hx] at h
      have : i = 0 := by injection h; omega
      subst this
      simp [hx]
    · rw [if_neg hx] at h
      cases hf : findCol name t with
      | none => rw [hf] at h; simp at h
      | some j =>
        rw [hf] at h
        simp only [Option.map] at h
        have : j + 1 = i := by injection h
        subst this
        simpa using ih hf

theorem findCol_none {name : String} {l : List String}
    (h : findCol name l = none) : name ∉ l := by
  induction l with
  | nil => simp
  | cons x t ih =>
    simp only [findCol] at h
    by_cases hx : x = name
    · rw [if_pos hx] at h; simp at h
    · rw [if_neg hx] at h
      cases hf : findCol name t with
      | none =>
        intro hc
        rcases List.mem_cons.mp hc with hc | hc
        · exact hx hc.symm
        · exact ih hf hc
      | some j => rw [hf] at h; simp at h

theorem count_le_one_unique {α : Type} [DecidableEq α] {l : List α} {v : α}
    (hc : l.count v ≤ 1) :
    ∀ {i j}, l.get? i = some v → l.get? j = some v → i = j := by
  induction l with
  | nil => intro i j hi; simp at hi
  | cons x t ih =>
    intro i j hi hj
    cases i with
    | zero =>
      cases j with
      | zero => rfl
      | succ j2 =>
        exfalso
        have hx : x = v := by simpa using hi
        have hjv : t.get? j2 = some v := by simpa using hj
        have hmem : v ∈ t := by
          rcases List.get?_eq_some.mp hjv with ⟨hlt, hget⟩
          exact hget ▸ List.get_mem t j2 hlt
        have h1 : 1 ≤ t.count v := List.one_le_count_iff.mpr hmem
        rw [hx, List.count_cons_self] at hc
        omega
    | succ i2 =>
      cases j with
      | zero =>
        exfalso
        have hx : x = v := by simpa using hj
        have hiv : t.get? i2 = some v := by simpa using hi
        have hmem : v ∈ t := by
          rcases List.get?_eq_some.mp hiv with ⟨hlt, hget⟩
          exact hget ▸ List.get_mem t i2 hlt
        have h1 : 1 ≤ t.count v := List.one_le_count_iff.mpr hmem
        rw [hx, List.count_cons_self] at hc
        omega
      | succ j2 =>
        have hi2 : t.get? i2 = some v := by simpa using hi
        have hj2 : t.get? j2 = some v := by simpa using hj
        have hct : t.count v ≤ 1 := by
          by_cases hxv : x = v
          · rw [hxv, List.count_cons_self] at hc
            omega
          · rwa [List.count_cons_of_ne (fun he => hxv he.symm)] at hc
        exact congrArg Nat.succ (ih hct hi2 hj2)

theorem orderedInsertRow_perm (pj : Nat) (r : List String)
    (l : List (List String)) : (orderedInsertRow pj r l).Perm (r :: l) := by
  induction l with
  | nil => exact List.Perm.refl _
  | cons x xs ih =>
    simp only [orderedInsertRow]
    split
    · exact List.Perm.refl _
    · exact (List.Perm.cons x ih).trans (List.Perm.swap r x xs)

theorem sortRowsByCol_perm (pj : Nat) (l : List (List String)) :
    (sortRowsByCol pj l).Perm l := by
  induction l with
  | nil => exact List.Perm.refl _
  | cons r rs ih =>
    exact (orderedInsertRow_perm pj r (sortRowsByCol pj rs)).trans
      (List.Perm.cons r ih)

theorem cleanupRows4_perm (values : List (List String)) :
    (cleanupRows4 values).Perm (cleanupRows3 values) := by
  unfold cleanupRows4
  split
  · exact sortRowsByCol_perm _ _
  · exact List.Perm.refl _

theorem getD_mem_or_default {α : Type} (l : List α) (i : Nat) (d : α) :
    l.getD i d ∈ l ∨ l.getD i d = d := by
  by_cases h : i < l.length
  · left
    rw [List.getD_eq_getElem l d h]
    exact List.getElem_mem h
  · right
    rw [List.getD_eq_default l d (by omega)]

theorem getD_map_get {α β : Type} (g : α → β) (l : List α) (i : Nat)
    (h : i < l.length) (d : β) :
    (l.map g).getD i d = g (l.get ⟨i, h⟩) := by
  rw [List.getD_eq_getElem (l.map g) d (by simpa using h)]
  simp

theorem cleanupRows1_sublist (values : List (List String)) :
    (cleanupRows1 values).Sublist (cleanupRows0 values) := by
  unfold cleanupRows1
  split
  · exact dedupSeen_sublist _ [] _
  · exact List.Sublist.refl _

theorem cleanupRows2_sublist (values : List (List String)) :
    (cleanupRows2 values).Sublist (cleanupRows1 values) :=
  List.filter_sublist _

theorem cleanupRows0_length {v0 : List String} {vrest : List (List String)}
    {r : List String} (hr : r ∈ cleanupRows0 (v0 :: vrest)) :
    r.length = cleanupMax (v0 :: vrest) := by
  rcases List.mem_map.mp hr with ⟨raw, hraw, hpad⟩
  have hmem : raw ∈ v0 :: vrest := List.mem_cons_of_mem v0 hraw
  rw [← hpad]
  exact length_padRow (mem_le_maxRowLen hmem)

theorem cleanupRows2_length {v0 : List String} {vrest : List (List String)}
    {r : List String} (hr : r ∈ cleanupRows2 (v0 :: vrest)) :
    r.length = cleanupMax (v0 :: vrest) :=
  cleanupRows0_length
    ((cleanupRows2_sublist _).trans (cleanupRows1_sublist _) |>.mem hr)

theorem mem_cleanupCols {values : List (List String)} {j : Nat}
    (hj : j ∈ cleanupCols values) :
    j < cleanupMax values ∧
      ∃ r ∈ cleanupRows2 values, ¬(r.getD j "" = "") := by
  have := List.mem_filter.mp hj
  refine ⟨List.mem_range.mp this.1, ?_⟩
  rcases List.any_eq_true.mp this.2 with ⟨r, hr, hrr⟩
  exact ⟨r, hr, by simpa using hrr⟩

theorem cleanupHeaders_length {v0 : List String} {vrest : List (List String)} :
    (cleanupHeaders (v0 :: vrest)).length = cleanupMax (v0 :: vrest) := by
  unfold cleanupHeaders defaultHeaders
  rw [length_defaultHeadersFrom]
  exact length_padRow (mem_le_maxRowLen (List.mem_cons_self v0 vrest))

theorem cleanupHeaders_ne_empty {values : List (List String)} :
    ∀ h ∈ cleanupHeaders values, h ≠ "" := by
  intro h hh
  exact defaultHeadersFrom_ne_empty _ 0 h hh

theorem rowAllBlank_false {r : List String} {c : String} (hc : c ∈ r)
    (hne : c ≠ "") : rowAllBlank r = false := by
  cases hb : rowAllBlank r
  · rfl
  · exfalso
    rw [rowAllBlank] at hb
    have := List.all_eq_true.mp hb c hc
    exact hne (by simpa using this)

theorem cleanupRows2_not_blank {values : List (List String)}
    {r : List String} (hr : r ∈ cleanupRows2 values) :
    rowAllBlank r = false := by
  have := List.mem_filter.mp hr
  simpa using this.2

theorem mem_cleanupHeaders2_sub {v0 : List String}
    {vrest : List (List String)} {h : String}
    (hh : h ∈ cleanupHeaders2 (v0 :: vrest)) :
    h ∈ cleanupHeaders (v0 :: vrest) := by
  rcases List.mem_map.mp hh with ⟨j, hj, hjh⟩
  have hjm : j < cleanupMax (v0 :: vrest) := (mem_cleanupCols hj).1
  have hlen : j < (cleanupHeaders (v0 :: vrest)).length := by
    rw [cleanupHeaders_length]; exact hjm
  rw [← hjh, List.getD_eq_getElem _ _ hlen]
  exact List.getElem_mem hlen

theorem dedupKeepFirst_eq_self {α β : Type} [DecidableEq β] (key : α → β)
    (xs : List α) (hpw : xs.Pairwise (fun a b => key a ≠ key b)) :
    dedupKeepFirst key xs = xs :=
  dedupSeen_eq_self key [] xs hpw (fun x _ => by simp)

/-- **C7, amended.** The Cleanup Pass is idempotent up to its numeric
write-back coercion: for every dataset whose effective header row names
`Sku Code` and `PO No` at most once each (so the pandas label lookups are
unambiguous) and whose data cells are all left unchanged by the coercion
(empty, or opening with a letter other than i/I/n/N — on such cells neither
`int` nor `float` parsing can fire), applying the pass to the output of the
pass removes zero further rows.  Without the cell restriction the coercion
can merge distinct keys and the second pass removes rows: see the
counterexample. -/
theorem C7_cleanup_idempotent_amended (values : List (List String))
    (hsku : (cleanupHeaders values).count "Sku Code" ≤ 1)
    (hpo : (cleanupHeaders values).count "PO No" ≤ 1)
    (hsafe : ∀ row ∈ values.tail, ∀ cell ∈ row, safeCell cell = true) :
    (cleanupSheet (cleanupSheet values).1).2 = 0 := by
  cases values with
  | nil => rfl
  | cons v0 vrest =>
    -- abbreviations
    have hsafe2 : ∀ row ∈ vrest, ∀ cell ∈ row, safeCell cell = true := hsafe
    -- Step 1: every cell of the sorted projected rows is safe.
    have hsafe4 : ∀ r ∈ cleanupRows4 (v0 :: vrest), ∀ cell ∈ r,
        safeCell cell = true := by
      intro r hr cell hcell
      have hr3 : r ∈ cleanupRows3 (v0 :: vrest) :=
        ((cleanupRows4_perm (v0 :: vrest)).mem_iff).mp hr
      rcases List.mem_map.mp hr3 with ⟨r2, hr2, hproj⟩
      rw [← hproj] at hcell
      rcases List.mem_map.mp hcell with ⟨j, _, hcj⟩
      rcases getD_mem_or_default r2 j "" with hin | hdef
      · rw [← hcj]
        have hr0 : r2 ∈ cleanupRows0 (v0 :: vrest) :=
          ((cleanupRows2_sublist _).trans (cleanupRows1_sublist _)).mem hr2
        rcases List.mem_map.mp hr0 with ⟨raw, hraw, hpad⟩
        rw [← hpad] at hin ⊢
        rcases mem_padRow hin with hin2 | hdef2
        · exact hsafe2 raw hraw _ hin2
        · rw [hdef2]; rfl
      · rw [← hcj, hdef]; rfl
    -- Step 2: the round trip is the identity on the written data rows.
    have hD : (cleanupRows4 (v0 :: vrest)).map (fun r => r.map roundtripCell) =
        cleanupRows4 (v0 :: vrest) := by
      have hinner : ∀ r ∈ cleanupRows4 (v0 :: vrest),
          r.map roundtripCell = r := by
        intro r hr
        have : ∀ c ∈ r, roundtripCell c = c := fun c hc =>
          roundtripCell_safe (hsafe4 r hr c hc)
        calc r.map roundtripCell = r.map id := List.map_congr_left this
        _ = r := List.map_id r
      calc (cleanupRows4 (v0 :: vrest)).map (fun r => r.map roundtripCell)
          = (cleanupRows4 (v0 :: vrest)).map id := List.map_congr_left hinner
      _ = cleanupRows4 (v0 :: vrest) := List.map_id _
    have hout : (cleanupSheet (v0 :: vrest)).1 =
        cleanupHeaders2 (v0 :: vrest) :: cleanupRows4 (v0 :: vrest) := by
      show cleanupHeaders2 (v0 :: vrest) ::
          (cleanupRows4 (v0 :: vrest)).map (fun r => r.map roundtripCell) = _
      rw [hD]
    rw [hout]
    -- Step 3: lengths in the written table.
    have hH2len : (cleanupHeaders2 (v0 :: vrest)).length =
        (cleanupCols (v0 :: vrest)).length := List.length_map _ _
    have hR4len : ∀ r ∈ cleanupRows4 (v0 :: vrest),
        r.length = (cleanupCols (v0 :: vrest)).length := by
      intro r hr
      have hr3 : r ∈ cleanupRows3 (v0 :: vrest) :=
        ((cleanupRows4_perm (v0 :: vrest)).mem_iff).mp hr
      rcases List.mem_map.mp hr3 with ⟨r2, _, hproj⟩
      rw [← hproj]
      exact List.length_map _ _
    have hmax2 : cleanupMax (cleanupHeaders2 (v0 :: vrest) ::
        cleanupRows4 (v0 :: vrest)) = (cleanupCols (v0 :: vrest)).length :=
      maxRowLen_const hH2len hR4len
    -- Step 4: headers of the second pass are unchanged.
    have hH2ne : ∀ h ∈ cleanupHeaders2 (v0 :: vrest), h ≠ "" := by
      intro h hh
      exact cleanupHeaders_ne_empty h (mem_cleanupHeaders2_sub hh)
    have hhead2 : cleanupHeaders (cleanupHeaders2 (v0 :: vrest) ::
        cleanupRows4 (v0 :: vrest)) = cleanupHeaders2 (v0 :: vrest) := by
      unfold cleanupHeaders
      rw [hmax2]
      show defaultHeaders
        (padRow (cleanupCols (v0 :: vrest)).length (cleanupHeaders2 (v0 :: vrest))) = _
      rw [padRow_eq_self hH2len]
      exact defaultHeadersFrom_eq_self _ hH2ne 0
    have hrows0 : cleanupRows0 (cleanupHeaders2 (v0 :: vrest) ::
        cleanupRows4 (v0 :: vrest)) = cleanupRows4 (v0 :: vrest) := by
      have h1 : cleanupRows0 (cleanupHeaders2 (v0 :: vrest) ::
          cleanupRows4 (v0 :: vrest)) = (cleanupRows4 (v0 :: vrest)).map
            (padRow (cleanupMax (cleanupHeaders2 (v0 :: vrest) ::
              cleanupRows4 (v0 :: vrest)))) := rfl
      rw [h1, hmax2]
      have h2 : ∀ r ∈ cleanupRows4 (v0 :: vrest),
          padRow (cleanupCols (v0 :: vrest)).length r = id r := by
        intro r hr
        exact padRow_eq_self (hR4len r hr)
      rw [List.map_congr_left h2, List.map_id]
    -- Step 5: no row of the written table is all blank.
    have hnb4 : ∀ r ∈ cleanupRows4 (v0 :: vrest), rowAllBlank r = false := by
      intro r hr
      have hr3 : r ∈ cleanupRows3 (v0 :: vrest) :=
        ((cleanupRows4_perm (v0 :: vrest)).mem_iff).mp hr
      rcases List.mem_map.mp hr3 with ⟨r2, hr2, hproj⟩
      have hnb2 : rowAllBlank r2 = false := cleanupRows2_not_blank hr2
      have hex : ∃ c ∈ r2, c ≠ "" := by
        by_contra hno
        push_neg at hno
        have : rowAllBlank r2 = true := by
          rw [rowAllBlank]
          exact List.all_eq_true.mpr (fun c hc => by simpa using hno c hc)
        rw [this] at hnb2
        cases hnb2
      rcases hex with ⟨c, hc, hcne⟩
      rcases List.mem_iff_get.mp hc with ⟨⟨j0, hj0⟩, hget⟩
      have hj0m : j0 < cleanupMax (v0 :: vrest) := by
        rw [← cleanupRows2_length hr2]
        exact hj0
      have hgetD : r2.getD j0 "" = c := by
        rw [List.getD_eq_getElem _ _ hj0]
        exact hget
      have hj0cols : j0 ∈ cleanupCols (v0 :: vrest) := by
        refine List.mem_filter.mpr ⟨List.mem_range.mpr hj0m, ?_⟩
        refine List.any_eq_true.mpr ⟨r2, hr2, ?_⟩
        have hne2 : ¬ (r2.getD j0 "" = "") := by
          rw [hgetD]; exact hcne
        simpa using hne2
      have hcr : c ∈ r := by
        rw [← hproj]
        exact List.mem_map.mpr ⟨j0, hj0cols, hgetD⟩
      exact rowAllBlank_false hcr hcne
    -- Step 6: the dedup of the second pass removes nothing.
    have hdedup : cleanupRows1 (cleanupHeaders2 (v0 :: vrest) ::
        cleanupRows4 (v0 :: vrest)) = cleanupRows4 (v0 :: vrest) := by
      unfold cleanupRows1
      rw [hhead2, hrows0]
      cases hsi2 : findCol "Sku Code" (cleanupHeaders2 (v0 :: vrest)) with
      | none => rfl
      | some si2 =>
        cases hpj2 : findCol "PO No" (cleanupHeaders2 (v0 :: vrest)) with
        | none => rfl
        | some pj2 =>
          -- the first pass did find both labels
          have hskuH2 : (cleanupHeaders2 (v0 :: vrest)).get? si2 =
              some "Sku Code" := findCol_sound hsi2
          have hpoH2 : (cleanupHeaders2 (v0 :: vrest)).get? pj2 =
              some "PO No" := findCol_sound hpj2
          have hskuH : "Sku Code" ∈ cleanupHeaders (v0 :: vrest) :=
            mem_cleanupHeaders2_sub (List.get?_mem hskuH2)
          have hpoH : "PO No" ∈ cleanupHeaders (v0 :: vrest) :=
            mem_cleanupHeaders2_sub (List.get?_mem hpoH2)
          have hsiex : ∃ si, findCol "Sku Code" (cleanupHeaders (v0 :: vrest)) =
              some si := by
            cases hf : findCol "Sku Code" (cleanupHeaders (v0 :: vrest)) with
            | none => exact absurd hskuH (findCol_none hf)
            | some si => exact ⟨si, rfl⟩
          have hpjex : ∃ pj, findCol "PO No" (cleanupHeaders (v0 :: vrest)) =
              some pj := by
            cases hf : findCol "PO No" (cleanupHeaders (v0 :: vrest)) with
            | none => exact absurd hpoH (findCol_none hf)
            | some pj => exact ⟨pj, rfl⟩
          rcases hsiex with ⟨si, hsi⟩
          rcases hpjex with ⟨pj, hpj⟩
          -- pass-one pairwise key distinctness
          have hR1eq : cleanupRows1 (v0 :: vrest) =
              dedupKeepFirst (cleanupKey si pj) (cleanupRows0 (v0 :: vrest)) := by
            unfold cleanupRows1
            rw [hsi, hpj]
          have hpw1 : (cleanupRows1 (v0 :: vrest)).Pairwise
              (fun a b => cleanupKey si pj a ≠ cleanupKey si pj b) := by
            rw [hR1eq]
            exact dedupSeen_pairwise _ [] _
          have hpw2 : (cleanupRows2 (v0 :: vrest)).Pairwise
              (fun a b => cleanupKey si pj a ≠ cleanupKey si pj b) :=
            hpw1.sublist (cleanupRows2_sublist _)
          -- the projected key columns are the original key columns
          have hsi2k : si2 < (cleanupCols (v0 :: vrest)).length := by
            have := List.get?_eq_some.mp hskuH2
            rcases this with ⟨hlt, _⟩
            rw [hH2len] at hlt
            exact hlt
          have hpj2k : pj2 < (cleanupCols (v0 :: vrest)).length := by
            have := List.get?_eq_some.mp hpoH2
            rcases this with ⟨hlt, _⟩
            rw [hH2len] at hlt
            exact hlt
          have hjs : (cleanupCols (v0 :: vrest)).get ⟨si2, hsi2k⟩ = si := by
            have hmemc : (cleanupCols (v0 :: vrest)).get ⟨si2, hsi2k⟩ ∈
                cleanupCols (v0 :: vrest) := List.get_mem _ _ _
            have hjm : (cleanupCols (v0 :: vrest)).get ⟨si2, hsi2k⟩ <
                cleanupMax (v0 :: vrest) := (mem_cleanupCols hmemc).1
            have hjH : (cleanupCols (v0 :: vrest)).get ⟨si2, hsi2k⟩ <
                (cleanupHeaders (v0 :: vrest)).length := by
              rw [cleanupHeaders_length]; exact hjm
            have hgv : (cleanupHeaders2 (v0 :: vrest)).getD si2 "" =
                (cleanupHeaders (v0 :: vrest)).getD
                  ((cleanupCols (v0 :: vrest)).get ⟨si2, hsi2k⟩) "" := by
              unfold cleanupHeaders2
              exact getD_map_get _ _ _ hsi2k ""
            have hv2 : (cleanupHeaders2 (v0 :: vrest)).getD si2 "" =
                "Sku Code" := by
              rw [List.getD_eq_getElem _ _ (by rw [hH2len]; exact hsi2k)]
              have := List.get?_eq_some.mp hskuH2
              rcases this with ⟨_, hg⟩
              exact hg
            have hvH : (cleanupHeaders (v0 :: vrest)).get?
                ((cleanupCols (v0 :: vrest)).get ⟨si2, hsi2k⟩) =
                some "Sku Code" := by
              rw [List.get?_eq_get hjH]
              rw [hgv, List.getD_eq_getElem _ _ hjH] at hv2
              rw [← hv2]
              rfl
            exact count_le_one_unique hsku hvH (findCol_sound hsi)
          have hjp : (cleanupCols (v0 :: vrest)).get ⟨pj2, hpj2k⟩ = pj := by
            have hmemc : (cleanupCols (v0 :: vrest)).get ⟨pj2, hpj2k⟩ ∈
                cleanupCols (v0 :: vrest) := List.get_mem _ _ _
            have hjm : (cleanupCols (v0 :: vrest)).get ⟨pj2, hpj2k⟩ <
                cleanupMax (v0 :: vrest) := (mem_cleanupCols hmemc).1
            have hjH : (cleanupCols (v0 :: vrest)).get ⟨pj2, hpj2k⟩ <
                (cleanupHeaders (v0 :: vrest)).length := by
              rw [cleanupHeaders_length]; exact hjm
            have hgv : (cleanupHeaders2 (v0 :: vrest)).getD pj2 "" =
                (cleanupHeaders (v0 :: vrest)).getD
                  ((cleanupCols (v0 :: vrest)).get ⟨pj2, hpj2k⟩) "" := by
              unfold cleanupHeaders2
              exact getD_map_get _ _ _ hpj2k ""
            have hv2 : (cleanupHeaders2 (v0 :: vrest)).getD pj2 "" =
                "PO No" := by
              rw [List.getD_eq_getElem _ _ (by rw [hH2len]; exact hpj2k)]
              have := List.get?_eq_some.mp hpoH2
              rcases this with ⟨_, hg⟩
              exact hg
            have hvH : (cleanupHeaders (v0 :: vrest)).get?
                ((cleanupCols (v0 :: vrest)).get ⟨pj2, hpj2k⟩) =
                some "PO No" := by
              rw [List.get?_eq_get hjH]
              rw [hgv, List.getD_eq_getElem _ _ hjH] at hv2
              rw [← hv2]
              rfl
            exact count_le_one_unique hpo hvH (findCol_sound hpj)
          -- key correspondence on projected rows
          have hkeys : ∀ r2 ∈ cleanupRows2 (v0 :: vrest),
              cleanupKey si2 pj2 ((cleanupCols (v0 :: vrest)).map
                (fun j => r2.getD j "")) = cleanupKey si pj r2 := by
            intro r2 _
            unfold cleanupKey
            rw [getD_map_get _ _ _ hsi2k "", getD_map_get _ _ _ hpj2k ""]
            rw [hjs, hjp]
          -- pairwise key distinctness of the written rows
          have hpw4 : (cleanupRows4 (v0 :: vrest)).Pairwise
              (fun a b => cleanupKey si2 pj2 a ≠ cleanupKey si2 pj2 b) := by
            have hpw3 : (cleanupRows3 (v0 :: vrest)).Pairwise
                (fun a b => cleanupKey si2 pj2 a ≠ cleanupKey si2 pj2 b) := by
              unfold cleanupRows3
              rw [List.pairwise_map]
              refine hpw2.imp_of_mem ?_
              intro a b ha hb hne
              rw [hkeys a ha, hkeys b hb]
              exact hne
            exact ((cleanupRows4_perm (v0 :: vrest)).pairwise_iff
              (fun h e => h e.symm)).mpr hpw3
          exact dedupKeepFirst_eq_self _ _ hpw4
    -- Step 7: the blank-row filter of the second pass removes nothing.
    have hfilter : cleanupRows2 (cleanupHeaders2 (v0 :: vrest) ::
        cleanupRows4 (v0 :: vrest)) = cleanupRows4 (v0 :: vrest) := by
      unfold cleanupRows2
      rw [hdedup]
      refine List.filter_eq_self.mpr ?_
      intro r hr
      simp [hnb4 r hr]
    -- Final count.
    have hsheet : (cleanupSheet (cleanupHeaders2 (v0 :: vrest) ::
        cleanupRows4 (v0 :: vrest))).2 =
        ((cleanupRows0 (cleanupHeaders2 (v0 :: vrest) ::
            cleanupRows4 (v0 :: vrest))).length -
          (cleanupRows1 (cleanupHeaders2 (v0 :: vrest) ::
            cleanupRows4 (v0 :: vrest))).length) +
        ((cleanupRows1 (cleanupHeaders2 (v0 :: vrest) ::
            cleanupRows4 (v0 :: vrest))).length -
          (cleanupRows2 (cleanupHeaders2 (v0 :: vrest) ::
            cleanupRows4 (v0 :: vrest))).length) := rfl
    rw [hsheet, hrows0, hdedup, hfilter]
    omega

theorem C7_witness :
    ((cleanupHeaders c7SafeInput).count "Sku Code" ≤ 1 ∧
      (cleanupHeaders c7SafeInput).count "PO No" ≤ 1 ∧
      (∀ row ∈ c7SafeInput.tail, ∀ cell ∈ row, safeCell cell = true)) ∧
    (cleanupSheet (cleanupSheet c7SafeInput).1).2 = 0 :=
  ⟨⟨by decide, by decide, by decide⟩,
    C7_cleanup_idempotent_amended c7SafeInput (by decide) (by decide)
      (by decide)⟩
